import Mathlib

/-!
Shallow embedding of the OMesh surface-mesh optimisation engine
(`src/deps/omesh/src/OptimizationMesh.cpp`) and proofs about it.

Floating-point quantities that only flow through comparisons and copies are
modelled over `ℚ`; geometric primitives that are themselves float-valued
(`computeDotProduct`, `computeCrossProduct`, eigen analysis) are either
embedded over `ℝ` or abstracted as oracle parameters where only the control
flow around them is at stake.  Control flow, index arithmetic and list/array
surgery are embedded exactly.
-/

namespace OMesh

/-! ### Coarse pass: neighbour relocation scan (`coarse`, lines 2391-2469) -/

/--
The neighbour scan at the end of a committed vertex removal in
`OptimizationMesh::coarse`.  The C++ is

```
int auxNumber2 = 0;
for (int m = 0; m < neighborNumber; ++m) {
    if (!vertex[auxNumber2].selected) continue;
    auxNumber2 = neighborAuxList[m];
    ... relocate vertex auxNumber2 ...
}
```

`auxNumber2` starts at `0` and is updated to `neighborAuxList[m]` only after
the `selected` test, so the test always looks at the previously relocated
vertex (or vertex `0` on the first round).  The function returns the list of
vertices that are actually relocated, in order; `aux` is `auxNumber2`.
-/
def coarseRelocated (selected : Nat → Bool) : List Nat → Nat → List Nat
  | [], _ => []
  | m :: rest, aux =>
    if selected aux then m :: coarseRelocated selected rest m
    else coarseRelocated selected rest aux

/-! ### Coarse pass: removal commits, the zero-eigenvalue abort and compaction
(`coarse`, lines 2050-2560) -/

/-- Mesh state tracked by the decimation pass: vertex coordinates and faces
`(v1, v2, v3, marker)`.  Faces use `Int` fields because the pass writes the
`-1` deletion sentinel into them. -/
structure CMesh where
  verts : List (ℚ × ℚ × ℚ)
  faces : List (Int × Int × Int × Int)
deriving DecidableEq, Repr

/-- The lazy-deletion coordinate sentinel `(-99999, -99999, -99999)` written
by `coarse` before compaction. -/
def sentinelPos : ℚ × ℚ × ℚ := (-99999, -99999, -99999)

/--
Oracle for the float-valued decisions taken inside the decimation loop, per
vertex index: `deleteFlag` is the parallel eligibility pre-pass result,
`topEigenZero` is the `eigenValue.x == 0` test, `accept` is
`ratio1 * ratio2 < coarsenessRate` (combined with the optional normal-angle
test), `incident` lists the face slots freed when the vertex is removed, and
`newWrites` are the face slots re-written by `subdividePolygon` together with
their new contents.
-/
structure CoarseOracle where
  deleteFlag : Nat → Bool
  topEigenZero : Nat → Bool
  accept : Nat → Bool
  incident : Nat → List Nat
  newWrites : Nat → List (Nat × (Int × Int × Int × Int))

/-- Mark one face slot with the `-1` deletion sentinel (`face[c].v1 = -1; ...`). -/
def markFaceDeleted (fs : List (Int × Int × Int × Int)) (c : Nat) :
    List (Int × Int × Int × Int) :=
  fs.set c (-1, -1, -1, -1)

/-- A committed removal of vertex `n`: write the coordinate sentinel, free the
incident face slots, then let `subdividePolygon` re-fill some of them. -/
def commitRemoval (O : CoarseOracle) (n : Nat) (st : CMesh) : CMesh :=
  { verts := st.verts.set n sentinelPos,
    faces := (O.newWrites n).foldl (fun fs w => fs.set w.1 w.2)
      ((O.incident n).foldl markFaceDeleted st.faces) }

/-- The vertex-survival test of the compaction phase (line 2482):
a vertex is kept iff none of its three coordinates equals `-99999`. -/
def vertKeep (v : ℚ × ℚ × ℚ) : Bool :=
  !(v.1 == -99999) && !(v.2.1 == -99999) && !(v.2.2 == -99999)

/-- `vertexIndexArray`: new index of a surviving vertex, `-1` for a removed
(or out-of-range) one. -/
def vertexIndexArray (verts : List (ℚ × ℚ × ℚ)) (i : Nat) : Int :=
  if i < verts.length ∧ vertKeep (verts.getD i sentinelPos) then
    ((verts.take i).countP vertKeep : Int)
  else -1

/-- Face compaction step (lines 2506-2527): a face survives iff its three
indices are non-negative and map to surviving vertices; it is rewritten with
the remapped indices and its marker kept. -/
def compactFace (verts : List (ℚ × ℚ × ℚ)) (f : Int × Int × Int × Int) :
    Option (Int × Int × Int × Int) :=
  let ra := vertexIndexArray verts f.1.toNat
  let rb := vertexIndexArray verts f.2.1.toNat
  let rc := vertexIndexArray verts f.2.2.1.toNat
  if 0 ≤ f.1 ∧ 0 ≤ f.2.1 ∧ 0 ≤ f.2.2.1 ∧ 0 ≤ ra ∧ 0 ≤ rb ∧ 0 ≤ rc then
    some (ra, rb, rc, f.2.2.2)
  else none

/-- The compaction phase at the end of a full `coarse` pass (lines 2479-2528):
drop sentinel vertices and dead faces, remapping indices. -/
def compact (st : CMesh) : CMesh :=
  { verts := st.verts.filter vertKeep,
    faces := st.faces.filterMap (compactFace st.verts) }

/--
The main per-vertex loop of `coarse` (lines 2159-2474 followed by the
compaction 2479-2528), over the list of vertex indices still to visit.
`flatPos` is `flatnessRate > 0`.  For an eligible vertex the zero-eigenvalue
test `eigenValue.x == 0` returns `0` immediately — without running the
compaction phase; otherwise an accepted vertex has its removal committed.
The returned `Int` is the function's `char` result: the `stop` flag is
initialised to `0` at line 2050 and never assigned, and the early
`return 0` paths agree, so every exit returns `0`.
-/
def coarseLoopAux (O : CoarseOracle) (flatPos : Bool) :
    List Nat → CMesh → CMesh × Int
  | [], st => (compact st, 0)
  | n :: rest, st =>
    if O.deleteFlag n then
      if flatPos && O.topEigenZero n then (st, 0)
      else if O.accept n then coarseLoopAux O flatPos rest (commitRemoval O n st)
      else coarseLoopAux O flatPos rest st
    else coarseLoopAux O flatPos rest st

/-- One `coarse` pass over all vertices of the mesh. -/
def coarse (O : CoarseOracle) (flatPos : Bool) (st : CMesh) : CMesh × Int :=
  coarseLoopAux O flatPos (List.range st.verts.length) st

/--
Number of `coarse` calls performed by the wrapper loops `coarseDense` /
`coarseFlat` (lines 2563-2580):

```
for (size_t i = 0; i < iterations; ++i)
    if (!coarse(...)) break;
```

`retSeq j` is the return value of the `j`-th call. -/
def coarseDenseCalls (retSeq : Nat → Int) : Nat → Nat → Nat
  | 0, _ => 0
  | its + 1, j => if retSeq j == 0 then 1 else 1 + coarseDenseCalls retSeq its (j + 1)

/-! ### Smoothing driver (`smooth`, lines 1674-1764) -/

/-- The `smoothed` test of `OptimizationMesh::smooth` (lines 1712 and 1759):
`minAngle > maxMinAngle && maxAngle < minaMaxAngle`, where the angle pair is
delivered by `getMinMaxAngles`, modelled abstractly by `angles` (it is a pure
float computation over the current mesh state `s`). -/
def smoothedTest {σ : Type} (angles : σ → ℚ × ℚ)
    (maxMinAngle minaMaxAngle : ℚ) (s : σ) : Bool :=
  decide (maxMinAngle < (angles s).1) && decide ((angles s).2 < minaMaxAngle)

/-- The `while (!smoothed && i < maximumIterations)` loop of `smooth`
(lines 1713-1760).  `pass` is one full relocation + edge-flipping sweep over
the selected vertices (lines 1718-1729); the result pairs the final state
with the number of executed passes. -/
def smoothLoop {σ : Type} (pass : σ → σ) (ok : σ → Bool) : Nat → σ → σ × Nat
  | 0, s => (s, 0)
  | fuel + 1, s =>
    if ok s then (s, 0)
    else
      let r := smoothLoop pass ok fuel (pass s)
      (r.1, r.2 + 1)

/-- `OptimizationMesh::smooth` after the neighbour list exists: run the loop
and return the final state, the number of passes, and the returned flag
(`return smoothed`, line 1763). -/
def smoothRun {σ : Type} (pass : σ → σ) (angles : σ → ℚ × ℚ)
    (maxMinAngle minaMaxAngle : ℚ) (maximumIterations : Nat) (s : σ) :
    σ × Nat × Bool :=
  let r := smoothLoop pass (smoothedTest angles maxMinAngle minaMaxAngle)
    maximumIterations s
  (r.1, r.2, smoothedTest angles maxMinAngle minaMaxAngle r.1)

/-! ### Edge-flip decision (`checkFlipAction`, lines 982-1035) -/

/-- The two geometric primitives invoked by `checkFlipAction`:
`dot a b c` is `computeDotProduct(a, b, c)` — the cosine at apex `a` between
the unit arms towards `b` and `c` — and `cross a b c` is
`computeCrossProduct(a, b, c)` — the normalised cross product of those arms.
Both are pure float functions of the vertex table and are abstracted here;
`checkFlipAction` itself only compares their results. -/
structure FlipGeom where
  dot : Nat → Nat → Nat → ℚ
  cross : Nat → Nat → Nat → ℚ × ℚ × ℚ

/-- Componentwise dot product of two triples (the expression
`normal1.x * normal2.x + normal1.y * normal2.y + normal1.z * normal2.z`). -/
def dot3 (u v : ℚ × ℚ × ℚ) : ℚ :=
  u.1 * v.1 + u.2.1 * v.2.1 + u.2.2 * v.2.2

/--
`OptimizationMesh::checkFlipAction(a, b, c, d, preserveRidges)`, with `true`
standing for the `char` value `1`.  `minAngle1` and `minAngle2` accumulate
the running maxima of the four dot products of each configuration starting
from `-99999`; the flip is approved iff `minAngle1 > minAngle2` and, when
`preserveRidges` is set, the dot product of the two face normals
`computeCrossProduct(a, c, b)` and `computeCrossProduct(a, b, d)` exceeds
`0.866`.
-/
def checkFlipAction (G : FlipGeom) (a b c d : Nat) (preserveRidges : Bool) :
    Bool :=
  let minAngle1 :=
    max (max (max (max (-99999 : ℚ) (G.dot a b c)) (G.dot a b d))
      (G.dot b a c)) (G.dot b a d)
  let minAngle2 :=
    max (max (max (max (-99999 : ℚ) (G.dot c a d)) (G.dot c b d))
      (G.dot d a c)) (G.dot d b c)
  if minAngle2 < minAngle1 then
    if !preserveRidges ||
        decide ((866 / 1000 : ℚ) < dot3 (G.cross a c b) (G.cross a b d)) then
      true
    else false
  else false

/-- C2's condition as the specification words it: the maximum interior-angle
cosine over the four corners at `a` and `b` (present configuration) strictly
exceeds the maximum over the four corners at `c` and `d` (flipped
configuration), and `preserveRidges` is off or the present face-pair normals
satisfy `n₁·n₂ > 0.866`.  (A definition written from the spec, to be compared
with `checkFlipAction`, which is written from the source.) -/
def checkFlipSpec (G : FlipGeom) (a b c d : Nat) (preserveRidges : Bool) :
    Prop :=
  max (max (G.dot a b c) (G.dot a b d)) (max (G.dot b a c) (G.dot b a d)) >
    max (max (G.dot c a d) (G.dot c b d)) (max (G.dot d a c) (G.dot d b c)) ∧
  (preserveRidges = false ∨
    dot3 (G.cross a c b) (G.cross a b d) > 866 / 1000)

/-- A degenerate flip geometry (all dot products `0`, all normals zero),
matching what `computeDotProduct` / `computeCrossProduct` return when every
vertex sits at the same point. -/
def cxFlipGeom : FlipGeom where
  dot := fun _ _ _ => 0
  cross := fun _ _ _ => (0, 0, 0)

/-! ### Interior angle (`getAngleBetweenVertices`, lines 559-586) -/

/-- Squared distance between vertices `a` and `b`: the `length1`-style sums
of coordinate-difference products in `getAngleBetweenVertices`. -/
noncomputable def lengthSq (verts : Nat → ℝ × ℝ × ℝ) (a b : Nat) : ℝ :=
  ((verts a).1 - (verts b).1) * ((verts a).1 - (verts b).1) +
  ((verts a).2.1 - (verts b).2.1) * ((verts a).2.1 - (verts b).2.1) +
  ((verts a).2.2 - (verts b).2.2) * ((verts a).2.2 - (verts b).2.2)

open Classical in
/--
`OptimizationMesh::getAngleBetweenVertices(a, b, c)`: with
`length1 = |ab|²`, `length2 = |ac|²`, `length3 = |bc|²`, return the sentinel
`-999` when `length1 == 0 || length2 == 0`, else
`acos(0.5 * (length1 + length2 - length3) / sqrt(length1 * length2)) * 180 / π`.
-/
noncomputable def getAngleBetweenVertices (verts : Nat → ℝ × ℝ × ℝ)
    (a b c : Nat) : ℝ :=
  if lengthSq verts a b = 0 ∨ lengthSq verts a c = 0 then -999
  else
    Real.arccos ((1 / 2) *
        (lengthSq verts a b + lengthSq verts a c - lengthSq verts b c) /
        Real.sqrt (lengthSq verts a b * lengthSq verts a c)) * 180 / Real.pi

/-! ### Refinement (`refine`, lines 1810-1985) -/

/-- Vertex coordinates for the refinement pass (float arithmetic here is
only the exact average `0.5 * (a + b)`, modelled over `ℚ`). -/
abbrev Vec3 := ℚ × ℚ × ℚ

/-- The mid-edge vertex written for a split edge (lines 1905-1907):
componentwise `0.5 * (p + q)`. -/
def edgeMidpoint (p q : Vec3) : Vec3 :=
  ((1 / 2) * (p.1 + q.1), (1 / 2) * (p.2.1 + q.2.1), (1 / 2) * (p.2.2 + q.2.2))

/-- The outgoing edges `refine` records at vertex `n` (lines 1843-1853): ring
entries `a` with `n < a`, in ring order.  `ring` is the list of the `ngr->a`
fields of vertex `n`'s neighbour list. -/
def ringEdges (n : Nat) (ring : List Nat) : List Nat :=
  ring.filter (fun a => decide (n < a))

/-- All split edges in enumeration order: vertices in index order, each ring
walked in order (the order in which `refine` appends midpoint vertices). -/
def collectEdges (rings : List (List Nat)) : List (Nat × Nat) :=
  (rings.enum.map (fun p => (ringEdges p.1 p.2).map (fun a => (p.1, a)))).flatten

/-- `offsets[v]` (lines 1838-1840): the number of edges recorded at vertices
before `v`. -/
def edgeOffsets (rings : List (List Nat)) (v : Nat) : Nat :=
  ((rings.take v).enum.map (fun p => (ringEdges p.1 p.2).length)).sum

/-- The mid-edge vertex lookup for a face edge `{u, w}` (lines 1927-1941):
`offsets[min] + k` where `k` scans the `min`-vertex segment of `vertex2edge`
for `max` and falls through to the segment length when absent. -/
def edgeIndexOf (rings : List (List Nat)) (u w : Nat) : Nat :=
  edgeOffsets rings (min u w) +
    (ringEdges (min u w) (rings.getD (min u w) [])).findIdx
      (fun a => a == max u w)

/-- The refined vertex table (lines 1858-1914): the original vertices
followed by one midpoint per collected edge, in enumeration order. -/
def refineVertices (verts : List Vec3) (rings : List (List Nat)) :
    List Vec3 :=
  verts ++ (collectEdges rings).map (fun e =>
    edgeMidpoint (verts.getD e.1 (0, 0, 0)) (verts.getD e.2 (0, 0, 0)))

/-- The central triangle replacing face `(v₀, v₁, v₂)` in place
(lines 1946-1949): its three mid-edge vertices. -/
def refineMidFace (V : Nat) (rings : List (List Nat)) (f : Nat × Nat × Nat) :
    Nat × Nat × Nat :=
  (V + edgeIndexOf rings f.1 f.2.1, V + edgeIndexOf rings f.2.1 f.2.2,
    V + edgeIndexOf rings f.2.2 f.1)

/-- The three corner triangles appended for a face (lines 1951-1958):
`(vᵢ, mᵢ, m_{(i+2) mod 3})`. -/
def refineCornerFaces (V : Nat) (rings : List (List Nat))
    (f : Nat × Nat × Nat) : List (Nat × Nat × Nat) :=
  let m0 := V + edgeIndexOf rings f.1 f.2.1
  let m1 := V + edgeIndexOf rings f.2.1 f.2.2
  let m2 := V + edgeIndexOf rings f.2.2 f.1
  [(f.1, m0, m2), (f.2.1, m1, m0), (f.2.2, m2, m1)]

/-- The refined face table: every face rewritten to its central triangle in
place, followed by the three appended corner triangles per face in face
order (`faceNumber` starts at `numberFaces` and appends sequentially). -/
def refineFaces (V : Nat) (rings : List (List Nat))
    (faces : List (Nat × Nat × Nat)) : List (Nat × Nat × Nat) :=
  faces.map (refineMidFace V rings) ++ faces.flatMap (refineCornerFaces V rings)

/-! ### Hole retriangulation (`subdividePolygon`, lines 1539-1672) -/

/-- A record of the cyclic boundary list handed to `subdividePolygon`:
`a` is the boundary vertex index and `b` is reused as that vertex's current
ring degree (set at line 2327 before the call). -/
structure PolyRec where
  a : Nat
  b : Nat
deriving DecidableEq, Repr

/-- The mutable state `subdividePolygon` threads through its recursion: the
list of `(slot, (v1, v2, v3, marker))` face writes performed so far, in
order, and the shared `*faceAvailableIndex` counter. -/
structure SubdivState where
  writes : List (Nat × (Nat × Nat × Nat × Nat))
  faceAvailableIndex : Nat
deriving DecidableEq, Repr

/-- First scan of the recursive case (lines 1606-1619): index of the first
record of minimal degree, scanning from `startNeighbour`. -/
def firstMinIdxAux : List Nat → Nat → Nat → Nat → Nat
  | [], _, besti, _ => besti
  | x :: xs, i, besti, bestv =>
    if x < bestv then firstMinIdxAux xs (i + 1) i x
    else firstMinIdxAux xs (i + 1) besti bestv

/-- Index of the first minimal-degree record (`firstNeighbour` = `p₁`). -/
def firstMinIdx : List Nat → Nat
  | [] => 0
  | x :: xs => firstMinIdxAux xs 1 0 x

/-- Second scan (lines 1621-1645): first minimal-degree record among the
candidates `ok`, with the accumulator seeded at `99999`. -/
def pickSecondAux (ok : Nat → Bool) :
    List Nat → Nat → Option Nat → Nat → Option Nat
  | [], _, best, _ => best
  | x :: xs, i, best, bestv =>
    if ok i && decide (x < bestv) then pickSecondAux ok xs (i + 1) (some i) x
    else pickSecondAux ok xs (i + 1) best bestv

/-- `secondNeighbour` = `p₂`: the first minimal-degree record that is not
`p₁`, not `p₁`'s successor, and not `p₁`'s predecessor. -/
def pickSecond (degs : List Nat) (ok : Nat → Bool) : Option Nat :=
  pickSecondAux ok degs 0 none 99999

/-- Increment the degree field of the record at position `i`
(lines 1647-1648: `firstNeighbour->b += 1; secondNeighbour->b += 1`). -/
def incDegAt : List PolyRec → Nat → List PolyRec
  | [], _ => []
  | r :: rs, 0 => { r with b := r.b + 1 } :: rs
  | r :: rs, i + 1 => r :: incDegAt rs i

/-- The degree list of the boundary records. -/
def polyDegs (L : List PolyRec) : List Nat := L.map (fun r => r.b)

/-- The candidate test for `p₂` (lines 1623-1625 and 1635-1637): position `j`
qualifies iff its record is not `p₁`, not `p₁`'s cyclic successor, and not
`p₁`'s cyclic predecessor. -/
def polyOk (i k j : Nat) : Bool :=
  decide (j ≠ i) && decide (j ≠ (i + 1) % k) && decide ((j + 1) % k ≠ i)

/-- The chord endpoints chosen by the recursive case: `p₁` is the first
record of minimal degree, `p₂` the first minimal-degree candidate. -/
def subdivChord (L : List PolyRec) : Option (Nat × Nat) :=
  match pickSecond (polyDegs L)
      (polyOk (firstMinIdx (polyDegs L)) L.length) with
  | none => none
  | some j => some (firstMinIdx (polyDegs L), j)

/-- The two sub-cycles produced by splitting along the chord `(p₁, p₂)`
(lines 1647-1665): both degrees are incremented, the first sub-cycle is the
arc `p₁ .. p₂` (inclusive), the second starts with the fresh copies of `p₁`
and `p₂` followed by the arc after `p₂` up to the record before `p₁`. -/
def subdivParts (L : List PolyRec) (i j : Nat) :
    List PolyRec × List PolyRec :=
  ((((incDegAt (incDegAt L i) j).rotate i).take
      ((j + L.length - i) % L.length + 1)),
    (((incDegAt (incDegAt L i) j).rotate i).take 1 ++
      (((incDegAt (incDegAt L i) j).rotate i).drop
        ((j + L.length - i) % L.length)).take 1 ++
      ((incDegAt (incDegAt L i) j).rotate i).drop
        ((j + L.length - i) % L.length + 1)))

/--
`OptimizationMesh::subdividePolygon(startNeighbour, faceAvailableList,
faceAvailableIndex, faceMarker)` over an explicit fuel (the cycle length
strictly decreases at each recursive call, so `fuel = L.length` suffices).
The cyclic boundary list is represented by the list `L` of its records
starting at `startNeighbour`.

* `k < 3`: report and return (line 1551).
* `k = 3`: consume the three records, write the triangle `(a, b, c)` with the
  given marker into face slot `faceAvailableList[*faceAvailableIndex]` and
  increment the index (lines 1559-1602; the three ring-record insertions
  touch the global rings, not this state).
* `k > 3`: pick `p₁` (first minimal degree) and `p₂` (first minimal degree
  among records not adjacent to `p₁` on the cycle), increment both degrees,
  split the cycle along the chord into the arc `p₁..p₂` and the cycle made of
  the copies of `p₁`, `p₂` followed by the arc after `p₂` up to before `p₁`,
  and recurse on the first then the second (lines 1604-1671).
-/
def subdividePolygonFuel (fal : Nat → Nat) (marker : Nat) :
    Nat → List PolyRec → SubdivState → SubdivState
  | 0, _, st => st
  | fuel + 1, L, st =>
    if L.length < 3 then st
    else if L.length = 3 then
      { writes := st.writes ++
          [(fal st.faceAvailableIndex,
            ((L.getD 0 ⟨0, 0⟩).a, (L.getD 1 ⟨0, 0⟩).a, (L.getD 2 ⟨0, 0⟩).a,
              marker))],
        faceAvailableIndex := st.faceAvailableIndex + 1 }
    else
      match subdivChord L with
      | none => st
      | some (i, j) =>
        subdividePolygonFuel fal marker fuel (subdivParts L i j).2
          (subdividePolygonFuel fal marker fuel (subdivParts L i j).1 st)

/-- `subdividePolygon` with enough fuel for its structural recursion. -/
def subdividePolygon (fal : Nat → Nat) (marker : Nat) (L : List PolyRec)
    (st : SubdivState) : SubdivState :=
  subdividePolygonFuel fal marker L.length L st

/-! ### Neighbour-list construction (`createNeighborlist`, lines 228-419) -/

/-- A ring record `(a, b, c)` of the neighbour list: together with its owner
vertex `v`, face `c` has vertices `(v, a, b)` in counter-clockwise order. -/
structure NPNT3 where
  a : Nat
  b : Nat
  c : Nat
deriving DecidableEq, Repr

/-- Prepend a record to the ring of vertex `v` (the `malloc` + head insert of
lines 267-272, 281-286, 295-300). -/
def pushRecord (rings : List (List NPNT3)) (v : Nat) (r : NPNT3) :
    List (List NPNT3) :=
  rings.set v (r :: rings.getD v [])

/-- One face's worth of ring pushes (lines 258-308): for enumerated face
`(k, (a, b, c))` prepend `(b, c, k)` to `a`'s ring, `(c, a, k)` to `b`'s
ring and `(a, b, k)` to `c`'s ring, in that order. -/
def buildStep (rings : List (List NPNT3)) (kf : Nat × (Nat × Nat × Nat)) :
    List (List NPNT3) :=
  pushRecord
    (pushRecord (pushRecord rings kf.2.1 ⟨kf.2.2.1, kf.2.2.2, kf.1⟩)
      kf.2.2.1 ⟨kf.2.2.2, kf.2.1, kf.1⟩)
    kf.2.2.2 ⟨kf.2.1, kf.2.2.1, kf.1⟩

/-- Phase 1 of `createNeighborlist` (lines 256-309): push every face's three
records, faces in index order. -/
def buildRings (numV : Nat) (faces : List (Nat × Nat × Nat)) :
    List (List NPNT3) :=
  faces.enum.foldl buildStep (List.replicate numV [])

/-- The records an enumerated face `(k, (a, b, c))` pushes onto vertex `v`'s
ring, in push order (used to characterise `buildRings`). -/
def faceRecordsAt (v : Nat) (kf : Nat × (Nat × Nat × Nat)) : List NPNT3 :=
  (if kf.2.1 = v then [⟨kf.2.2.1, kf.2.2.2, kf.1⟩] else []) ++
    (if kf.2.2.1 = v then [⟨kf.2.2.2, kf.2.1, kf.1⟩] else []) ++
    (if kf.2.2.2 = v then [⟨kf.2.1, kf.2.2.1, kf.1⟩] else [])

/-- How many corners of face `f` equal vertex `v` (the number of records
face `f` contributes to `v`'s ring). -/
def cornerContrib (v : Nat) (f : Nat × Nat × Nat) : Nat :=
  (if f.1 = v then 1 else 0) + (if f.2.1 = v then 1 else 0) +
    (if f.2.2 = v then 1 else 0)

/-- The successor search of the ordering phase (lines 343-368): the first
record in the remaining tail whose `a` equals the current record's `b` and
whose `b` differs from the current record's `a`, returned together with the
tail without it (the splice moves it up front, preserving the rest's
order). -/
def findSucc (prev : NPNT3) : List NPNT3 → Option (NPNT3 × List NPNT3)
  | [] => none
  | r :: rs =>
    if r.a == prev.b && !(r.b == prev.a) then some (r, rs)
    else
      match findSucc prev rs with
      | some (q, rest) => some (q, r :: rest)
      | none => none

/-- The splice-ordering walk (lines 338-372): each step moves the found
successor next to the current record; when no record qualifies, the walk
steps to the physically next record.  Each step consumes one record of the
tail, so `fuel = rest.length` suffices. -/
def orderRingAux : Nat → NPNT3 → List NPNT3 → List NPNT3
  | 0, _, _ => []
  | fuel + 1, cur, rest =>
    match findSucc cur rest with
    | some (q, rest') => q :: orderRingAux fuel q rest'
    | none =>
      match rest with
      | [] => []
      | q :: rs => q :: orderRingAux fuel q rs

/-- Order a ring counter-clockwise starting from its head, which the splice
never moves. -/
def orderRing : List NPNT3 → List NPNT3
  | [] => []
  | r :: rs => r :: orderRingAux rs.length r rs

/-- The consecutive-connectivity walk after ordering (lines 375-397): every
record's `b` must equal its successor's `a`. -/
def chainOk : List NPNT3 → Bool
  | [] => true
  | [_] => true
  | x :: y :: rest => x.b == y.a && chainOk (y :: rest)

/-- The closed-ring determination of the ordering phase: the chain walk plus
the final `b0 != c` comparison (line 400), where `c` is the head record's
`a` (read at line 335, before ordering — the head never moves) and `b0` is
the last value assigned in the inner scan.  When the ring has at least two
records the scan over the penultimate record's one-element tail always
assigns `b0` the final record's `b` (lines 346-347 run for every examined
record, splice or not); for a singleton ring the scan never runs and `b0`
keeps its initial `-1`, which differs from every vertex index, so a
singleton is never closed.  The empty case is unreachable here: this phase
only runs when every ring is nonempty. -/
def ringClosed : List NPNT3 → Bool
  | [] => false
  | [_] => false
  | r :: rs => chainOk (r :: rs) && ((rs.getLastD r).b == r.a)

/-- Number of unconnected (empty-ring) vertices with index below `i` — the
`verticesToRemove` prefix count of `removeUnconnectedVertices`
(lines 182-193) for a surviving vertex. -/
def offsetBelow (rings : List (List NPNT3)) (i : Nat) : Nat :=
  ((List.range i).filter (fun j => (rings.getD j []).isEmpty)).length

/-- `removeUnconnectedVertices` (lines 177-225) as invoked from
`createNeighborlist`: drop the vertices whose ring stayed empty (their
marker is still `-1`) and rewrite face indices downwards by the prefix
count. -/
def removeUnconnected (sel : List Bool) (rings : List (List NPNT3))
    (faces : List (Nat × Nat × Nat)) :
    List Bool × List (Nat × Nat × Nat) :=
  ((((sel.zip rings).filter (fun p => !p.2.isEmpty)).map Prod.fst),
    faces.map (fun f =>
      (f.1 - offsetBelow rings f.1, f.2.1 - offsetBelow rings f.2.1,
        f.2.2 - offsetBelow rings f.2.2)))

/--
`OptimizationMesh::createNeighborlist` over the selection flags and faces of
the mesh (vertex coordinates are irrelevant to the adjacency):

1. build the rings (lines 256-309);
2. if some vertex received no record (`numberConnected < numberVertices`,
   line 312), destroy the list, compact the unconnected vertices away and
   start over (lines 314-325) — each restart strictly decreases the vertex
   count, so `fuel = numberVertices + 1` suffices and `none` is unreachable;
3. otherwise order every ring and set `selected := false` for each vertex
   whose ring does not close (lines 327-415), returning the updated
   selection flags, the (possibly compacted) faces and the ordered rings.
-/
def createNeighborlistAux :
    Nat → List Bool → List (Nat × Nat × Nat) →
    Option (List Bool × List (Nat × Nat × Nat) × List (List NPNT3))
  | 0, _, _ => none
  | fuel + 1, sel, faces =>
    if (buildRings sel.length faces).countP (fun r => !r.isEmpty) <
        sel.length then
      createNeighborlistAux fuel
        (removeUnconnected sel (buildRings sel.length faces) faces).1
        (removeUnconnected sel (buildRings sel.length faces) faces).2
    else
      some ((sel.enum).map (fun p =>
          p.2 && ringClosed (((buildRings sel.length faces).map
            orderRing).getD p.1 [])),
        faces, (buildRings sel.length faces).map orderRing)

/-- `createNeighborlist` with enough fuel for the restart recursion. -/
def createNeighborlist (sel : List Bool) (faces : List (Nat × Nat × Nat)) :
    Option (List Bool × List (Nat × Nat × Nat) × List (List NPNT3)) :=
  createNeighborlistAux (sel.length + 1) sel faces

/-! ### Concrete decimation fixtures used by counterexamples and witnesses -/

/-- A decimation-decision oracle: vertex `0` is eligible and accepted for
removal (freeing face slots `0..3`, of which `subdividePolygon` re-fills
slots `0` and `1`), vertex `1` is eligible and hits the zero top eigenvalue,
vertex `2` is not eligible. -/
def cxOracle : CoarseOracle where
  deleteFlag := fun n => n == 0 || n == 1
  topEigenZero := fun n => n == 1
  accept := fun _ => true
  incident := fun n => if n == 0 then [0, 1, 2, 3] else []
  newWrites := fun n =>
    if n == 0 then [(0, (1, 2, 3, 7)), (1, (2, 3, 1, 7))] else []

/-- A three-vertex, four-face-slot mesh state for the decimation fixtures. -/
def cxMesh : CMesh where
  verts := [(0, 0, 0), (1, 0, 0), (2, 0, 0)]
  faces := [(0, 1, 2, 7), (0, 1, 2, 7), (0, 1, 2, 7), (0, 1, 2, 7)]

end OMesh

namespace OMesh

/-! ### Theorems -/

/-- Behaviour of the `smoothLoop` fuel recursion. -/
theorem smoothLoop_spec {σ : Type} (pass : σ → σ) (ok : σ → Bool) :
    ∀ (fuel : Nat) (s : σ),
      (smoothLoop pass ok fuel s).2 ≤ fuel ∧
      (smoothLoop pass ok fuel s).1 = pass^[(smoothLoop pass ok fuel s).2] s ∧
      (∀ j < (smoothLoop pass ok fuel s).2, ok (pass^[j] s) = false) ∧
      ((smoothLoop pass ok fuel s).2 < fuel →
        ok (smoothLoop pass ok fuel s).1 = true) ∧
      (ok s = true → (smoothLoop pass ok fuel s).2 = 0) := by
  intro fuel
  induction fuel with
  | zero =>
    intro s
    simp [smoothLoop]
  | succ fuel ih =>
    intro s
    rw [smoothLoop]
    by_cases h : ok s = true
    · simp [h]
    · simp only [h, Bool.false_eq_true, if_false]
      obtain ⟨h1, h2, h3, h4, _⟩ := ih (pass s)
      refine ⟨by omega, ?_, ?_, ?_, by simp [h]⟩
      · simpa [Function.iterate_succ_apply] using h2
      · intro j hj
        cases j with
        | zero => simpa using h
        | succ j =>
          have := h3 j (by omega)
          simpa [Function.iterate_succ_apply] using this
      · intro hlt
        exact h4 (by omega)

/--
C1: for every mesh on which the neighbour list can be built,
`smooth(maxMinAngle, minMaxAngle, maximumIterations, preserveRidges, verbose)`
executes at most `maximumIterations` relocation + flipping passes, stops as
soon as the computed minimum angle exceeds `maxMinAngle` and the computed
maximum angle is below `minMaxAngle` (executing zero passes if that holds at
entry), and returns `true` iff that angle condition holds when it returns.
Here the mesh state, one pass, and `getMinMaxAngles` are abstract
(`σ`, `pass`, `angles`); the loop and the test are embedded exactly.
-/
theorem smooth_loop_correct {σ : Type} (pass : σ → σ) (angles : σ → ℚ × ℚ)
    (maxMinAngle minaMaxAngle : ℚ) (maximumIterations : Nat) (s : σ) :
    (smoothRun pass angles maxMinAngle minaMaxAngle maximumIterations s).2.1 ≤
        maximumIterations ∧
    (smoothedTest angles maxMinAngle minaMaxAngle s = true →
      (smoothRun pass angles maxMinAngle minaMaxAngle maximumIterations s).2.1 = 0) ∧
    (smoothRun pass angles maxMinAngle minaMaxAngle maximumIterations s).1 =
      pass^[(smoothRun pass angles maxMinAngle minaMaxAngle maximumIterations s).2.1] s ∧
    (∀ j < (smoothRun pass angles maxMinAngle minaMaxAngle maximumIterations s).2.1,
      smoothedTest angles maxMinAngle minaMaxAngle (pass^[j] s) = false) ∧
    ((smoothRun pass angles maxMinAngle minaMaxAngle maximumIterations s).2.1 <
        maximumIterations →
      (smoothRun pass angles maxMinAngle minaMaxAngle maximumIterations s).2.2 = true) ∧
    (smoothRun pass angles maxMinAngle minaMaxAngle maximumIterations s).2.2 =
      smoothedTest angles maxMinAngle minaMaxAngle
        (smoothRun pass angles maxMinAngle minaMaxAngle maximumIterations s).1 := by
  obtain ⟨h1, h2, h3, h4, h5⟩ :=
    smoothLoop_spec pass (smoothedTest angles maxMinAngle minaMaxAngle)
      maximumIterations s
  refine ⟨h1, h5, h2, h3, ?_, rfl⟩
  intro hlt
  simpa [smoothRun] using h4 hlt

/-- Witness for `smooth_loop_correct` at a concrete instance: the state is a
counter, `pass` is the successor, the measured angle pair is `(n, 0)` with
targets `2` and `20`; the loop stops after three passes with the flag set. -/
theorem smooth_loop_correct_witness :
    (smoothRun (fun n : Nat => n + 1) (fun n : Nat => ((n : ℚ), 0))
      2 20 7 0).2.2 = true := by
  have h := smooth_loop_correct (fun n : Nat => n + 1)
    (fun n : Nat => ((n : ℚ), 0)) 2 20 7 0
  apply h.2.2.2.2.1
  norm_num [smoothRun, smoothLoop, smoothedTest]

/-- Every exit of the embedded `coarse` loop returns `0`. -/
theorem coarseLoopAux_ret_zero (O : CoarseOracle) (fp : Bool) (ns : List Nat) :
    ∀ st : CMesh, (coarseLoopAux O fp ns st).2 = 0 := by
  induction ns with
  | nil => intro st; rfl
  | cons n rest ih =>
    intro st
    rw [coarseLoopAux]
    split
    · split
      · rfl
      · split
        · exact ih _
        · exact ih _
    · exact ih _

/--
C10 (amended): whenever `coarse()` completes (abort or full pass), its return
value is `0`, because the `stop` flag is initialised to `0` and never set;
consequently `coarseDense(rate, iterations, verbose)` and
`coarseFlat(rate, iterations, verbose)` call `coarse` exactly once and then
break out of their loop whenever `iterations ≥ 1`, and call it zero times
when `iterations = 0`.
-/
theorem coarse_zero_and_wrapper_single_call :
    (∀ (O : CoarseOracle) (fp : Bool) (ns : List Nat) (st : CMesh),
      (coarseLoopAux O fp ns st).2 = 0) ∧
    (∀ (retSeq : Nat → Int) (its j : Nat), (∀ m, retSeq m = 0) → 1 ≤ its →
      coarseDenseCalls retSeq its j = 1) := by
  refine ⟨fun O fp ns st => coarseLoopAux_ret_zero O fp ns st, ?_⟩
  intro retSeq its j hz hits
  cases its with
  | zero => omega
  | succ its => simp [coarseDenseCalls, hz j]

/-- Witness for `coarse_zero_and_wrapper_single_call`: with every call
returning `0` and `iterations = 5`, the wrapper performs exactly one call. -/
theorem coarse_zero_and_wrapper_single_call_witness :
    coarseDenseCalls (fun _ => 0) 5 0 = 1 :=
  coarse_zero_and_wrapper_single_call.2 (fun _ => 0) 5 0 (fun _ => rfl)
    (by norm_num)

/--
C10 (counterexample): the wrappers do not call `coarse` "exactly once
regardless of the iterations argument" — with `iterations = 0` the loop body
never runs, so `coarse` is called zero times, not once.
-/
theorem coarse_wrapper_zero_iterations_cx :
    ¬ (coarseDenseCalls (fun _ => 0) 0 0 = 1) := by decide

/--
C8: the neighbour-relocation scan after a committed removal in `coarse`
(lines 2392-2398) tests `vertex[auxNumber2].selected` before `auxNumber2` is
updated to `neighborAuxList[m]`, so the test looks at the previously
relocated vertex (initially vertex `0`) instead of the current neighbour.
With `selected = {0 ↦ true, 1 ↦ false, 2 ↦ true}` and collected neighbours
`N = [1, 2]`, the code relocates exactly vertex `1` (which is *not*
selected) and skips vertex `2` (which *is* selected), while the claim says
exactly the selected neighbours, `[2]`, are relocated.
-/
theorem coarse_relocation_selected_check_stale :
    coarseRelocated (fun n => n == 0 || n == 2) [1, 2] 0 = [1] ∧
    List.filter (fun n => n == 0 || n == 2) [1, 2] = [2] ∧
    ([1] : List Nat) ≠ [2] := by decide

/-- Unfolding the embedded `coarse` loop up to the first vertex at which the
zero-top-eigenvalue abort fires: the result is the fold of the committed
removals over the earlier vertices, the return value is `0`, and the
compaction phase is not run. -/
theorem coarseLoopAux_abort (O : CoarseOracle) (n : Nat) (ns2 : List Nat)
    (hflag : O.deleteFlag n = true) (hzero : O.topEigenZero n = true) :
    ∀ (ns1 : List Nat) (st : CMesh),
      (∀ m ∈ ns1, ¬(O.deleteFlag m = true ∧ O.topEigenZero m = true)) →
      coarseLoopAux O true (ns1 ++ n :: ns2) st =
        (ns1.foldl
          (fun s m =>
            if O.deleteFlag m && O.accept m then commitRemoval O m s else s)
          st, 0) := by
  intro ns1
  induction ns1 with
  | nil =>
    intro st _
    simp only [List.nil_append, List.foldl_nil]
    rw [coarseLoopAux]
    simp [hflag, hzero]
  | cons m rest ih =>
    intro st hfirst
    have hm := hfirst m (by simp)
    have hrest : ∀ m' ∈ rest, ¬(O.deleteFlag m' = true ∧ O.topEigenZero m' = true) :=
      fun m' hm' => hfirst m' (by simp [hm'])
    simp only [List.cons_append, List.foldl_cons]
    rw [coarseLoopAux]
    by_cases h1 : O.deleteFlag m = true
    · have h2 : O.topEigenZero m = false := by
        cases h : O.topEigenZero m
        · rfl
        · exact absurd ⟨h1, h⟩ hm
      by_cases h3 : O.accept m = true
      · simp only [h1, h2, h3, Bool.true_and, Bool.and_true, if_true,
          Bool.false_eq_true, if_false]
        exact ih (commitRemoval O m st) hrest
      · have h3' : O.accept m = false := by
          cases h : O.accept m
          · rfl
          · exact absurd h h3
        simp only [h1, h2, h3', Bool.true_and, Bool.and_false, if_true,
          Bool.false_eq_true, if_false]
        exact ih st hrest
    · have h1' : O.deleteFlag m = false := by
        cases h : O.deleteFlag m
        · rfl
        · exact absurd h h1
      simp only [h1', Bool.false_and, Bool.false_eq_true, if_false]
      exact ih st hrest

/-- The removal fold is the identity when no vertex in the list is both
eligible and accepted. -/
theorem foldl_commit_id (O : CoarseOracle) :
    ∀ (ns : List Nat) (st : CMesh),
      (∀ m ∈ ns, ¬(O.deleteFlag m = true ∧ O.accept m = true)) →
      ns.foldl
        (fun s m =>
          if O.deleteFlag m && O.accept m then commitRemoval O m s else s)
        st = st := by
  intro ns
  induction ns with
  | nil => intro st _; rfl
  | cons m rest ih =>
    intro st h
    have hm := h m (by simp)
    have hcond : (O.deleteFlag m && O.accept m) = false := by
      cases h1 : O.deleteFlag m
      · simp
      · cases h2 : O.accept m
        · simp
        · exact absurd ⟨h1, h2⟩ hm
    simp only [List.foldl_cons, hcond, Bool.false_eq_true, if_false]
    exact ih st (fun m' hm' => h m' (by simp [hm']))

/--
C4 (amended): if, during a `coarse()` pass with `flatnessRate > 0`, the top
eigenvalue computed at some eligible vertex equals `0`, then `coarse` reports
the error and returns `0`, leaving the mesh exactly in the state accumulated
by the removals committed *earlier* in the pass, with no compaction and with
the aborting vertex itself untouched; in particular the mesh is unchanged
(hence consistent) precisely when no removal was committed before the abort.
-/
theorem coarse_abort_state (O : CoarseOracle) (ns1 : List Nat) (n : Nat)
    (ns2 : List Nat) (st : CMesh)
    (hflag : O.deleteFlag n = true) (hzero : O.topEigenZero n = true)
    (hfirst : ∀ m ∈ ns1, ¬(O.deleteFlag m = true ∧ O.topEigenZero m = true)) :
    coarseLoopAux O true (ns1 ++ n :: ns2) st =
      (ns1.foldl
        (fun s m =>
          if O.deleteFlag m && O.accept m then commitRemoval O m s else s)
        st, 0) ∧
    ((∀ m ∈ ns1, ¬(O.deleteFlag m = true ∧ O.accept m = true)) →
      (coarseLoopAux O true (ns1 ++ n :: ns2) st).1 = st) := by
  have h := coarseLoopAux_abort O n ns2 hflag hzero ns1 st hfirst
  refine ⟨h, fun hnone => ?_⟩
  rw [h]
  exact foldl_commit_id O ns1 st hnone

/-- Witness for `coarse_abort_state`: vertex `0` is removed, the abort fires
at vertex `1`. -/
theorem coarse_abort_state_witness :
    coarseLoopAux cxOracle true ([0] ++ 1 :: [2]) cxMesh =
      ([0].foldl
        (fun s m =>
          if cxOracle.deleteFlag m && cxOracle.accept m
          then commitRemoval cxOracle m s else s)
        cxMesh, 0) :=
  (coarse_abort_state cxOracle [0] 1 [2] cxMesh (by decide) (by decide)
    (by decide)).1

/--
C2: `checkFlipAction(a, b, c, d, preserveRidges)` returns `1` iff the
maximum interior-angle cosine over the four corners at `a` and `b` (present
configuration: the four `computeDotProduct` calls with apexes `a`, `b`)
strictly exceeds the maximum over the four corners at `c` and `d` (flipped
configuration), and `preserveRidges` is off or the dot product of the two
present-configuration face normals exceeds `0.866`.  The hypotheses record
that the two quoted dot products are cosines of unit (or zero) vectors and
hence at least `-1`, so the `-99999` accumulator seeds are absorbed.
-/
theorem checkFlipAction_correct (G : FlipGeom) (a b c d : Nat)
    (preserveRidges : Bool)
    (h1 : (-1 : ℚ) ≤ G.dot a b c) (h2 : (-1 : ℚ) ≤ G.dot c a d) :
    (checkFlipAction G a b c d preserveRidges = true ↔
      checkFlipSpec G a b c d preserveRidges) := by
  have e1 : max (-99999 : ℚ) (G.dot a b c) = G.dot a b c :=
    max_eq_right (by linarith)
  have e2 : max (-99999 : ℚ) (G.dot c a d) = G.dot c a d :=
    max_eq_right (by linarith)
  simp only [checkFlipAction, checkFlipSpec, e1, e2,
    max_assoc (max (G.dot a b c) (G.dot a b d)),
    max_assoc (max (G.dot c a d) (G.dot c b d))]
  constructor
  · intro h
    split at h
    · rename_i hlt
      split at h
      · rename_i hg
        refine ⟨hlt, ?_⟩
        rcases Bool.or_eq_true_iff.mp hg with hp | hd
        · left
          cases hpr : preserveRidges
          · rfl
          · rw [hpr] at hp
            cases hp
        · right
          exact of_decide_eq_true hd
      · cases h
    · cases h
  · rintro ⟨hgt, hridge⟩
    rw [if_pos hgt]
    have hcond : (!preserveRidges ||
        decide ((866 / 1000 : ℚ) < dot3 (G.cross a c b) (G.cross a b d))) =
          true := by
      rcases hridge with hp | hd
      · rw [hp]
        rfl
      · simp [decide_eq_true hd]
    rw [if_pos hcond]

/-- Witness for `checkFlipAction_correct` on the degenerate geometry: all
cosines are `0`, so neither side strictly wins and no flip is approved. -/
theorem checkFlipAction_correct_witness :
    ((-1 : ℚ) ≤ cxFlipGeom.dot 0 1 2) ∧
    checkFlipAction cxFlipGeom 0 1 2 3 true = false := by
  have h := checkFlipAction_correct cxFlipGeom 0 1 2 3 true
    (by norm_num [cxFlipGeom]) (by norm_num [cxFlipGeom])
  refine ⟨by norm_num [cxFlipGeom], ?_⟩
  have hns : ¬ checkFlipSpec cxFlipGeom 0 1 2 3 true := by
    intro hs
    have := hs.1
    simp [cxFlipGeom, checkFlipSpec] at this
  cases hcase : checkFlipAction cxFlipGeom 0 1 2 3 true
  · rfl
  · exact absurd (h.mp hcase) hns

/--
C9: `getAngleBetweenVertices(a, b, c)` returns the sentinel `-999` exactly
when `|ab|² = 0` or `|ac|² = 0` (a zero-length third edge `|bc|² = 0` does
not produce the sentinel), and otherwise returns the law-of-cosines angle
`acos(0.5 * (|ab|² + |ac|² - |bc|²) / sqrt(|ab|² * |ac|²)) * 180 / π` in
degrees, which is never `-999` since `acos` is non-negative.
-/
theorem getAngleBetweenVertices_correct (verts : Nat → ℝ × ℝ × ℝ)
    (a b c : Nat) :
    (getAngleBetweenVertices verts a b c = -999 ↔
      lengthSq verts a b = 0 ∨ lengthSq verts a c = 0) ∧
    (lengthSq verts a b ≠ 0 → lengthSq verts a c ≠ 0 →
      getAngleBetweenVertices verts a b c =
        Real.arccos ((1 / 2) *
          (lengthSq verts a b + lengthSq verts a c - lengthSq verts b c) /
          Real.sqrt (lengthSq verts a b * lengthSq verts a c)) * 180 /
          Real.pi) := by
  constructor
  · constructor
    · intro h
      by_contra hne
      push_neg at hne
      rw [getAngleBetweenVertices, if_neg (by tauto)] at h
      have harc : 0 ≤ Real.arccos ((1 / 2) *
          (lengthSq verts a b + lengthSq verts a c - lengthSq verts b c) /
          Real.sqrt (lengthSq verts a b * lengthSq verts a c)) :=
        Real.arccos_nonneg _
      have hpi : 0 < Real.pi := Real.pi_pos
      have hnn : (0 : ℝ) ≤ Real.arccos ((1 / 2) *
          (lengthSq verts a b + lengthSq verts a c - lengthSq verts b c) /
          Real.sqrt (lengthSq verts a b * lengthSq verts a c)) * 180 /
          Real.pi := by positivity
      rw [h] at hnn
      norm_num at hnn
    · intro h
      rw [getAngleBetweenVertices, if_pos h]
  · intro h1 h2
    rw [getAngleBetweenVertices, if_neg (by tauto)]

/-- Witness for `getAngleBetweenVertices_correct`: with all vertices at the
origin the edge `ab` is degenerate and the sentinel is returned. -/
theorem getAngleBetweenVertices_correct_witness :
    getAngleBetweenVertices (fun _ => ((0 : ℝ), (0 : ℝ), (0 : ℝ))) 0 1 2 =
      -999 := by
  apply (getAngleBetweenVertices_correct (fun _ => ((0 : ℝ), 0, 0)) 0 1 2).1.mpr
  left
  norm_num [lengthSq]

/--
C3: after `refine()` the vertex count equals the old vertex count plus the
number of unique edges (pairs `(v, a)` in a ring with `v < a`), the face
count equals four times the old face count, and every newly appended vertex
lies exactly at the coordinate midpoint `0.5 * (p_v + p_a)` of its original
edge `(v, a)`.  Stated for every mesh (vertex table, faces, adjacency rings),
which subsumes the meshes with a valid closed adjacency.
-/
theorem refine_correct (verts : List Vec3) (rings : List (List Nat))
    (faces : List (Nat × Nat × Nat)) :
    (refineVertices verts rings).length =
      verts.length + (collectEdges rings).length ∧
    (refineFaces verts.length rings faces).length = 4 * faces.length ∧
    (∀ i < (collectEdges rings).length,
      (refineVertices verts rings).getD (verts.length + i) (0, 0, 0) =
        edgeMidpoint
          (verts.getD ((collectEdges rings).getD i (0, 0)).1 (0, 0, 0))
          (verts.getD ((collectEdges rings).getD i (0, 0)).2 (0, 0, 0))) := by
  refine ⟨by simp [refineVertices], ?_, ?_⟩
  · have hb : (faces.flatMap (refineCornerFaces verts.length rings)).length =
        3 * faces.length := by
      induction faces with
      | nil => rfl
      | cons f fs ih =>
        simp only [List.flatMap_cons, List.length_append, ih, List.length_cons]
        simp [refineCornerFaces]
        ring
    simp only [refineFaces, List.length_append, List.length_map, hb]
    ring
  · intro i hi
    have hmap : ∀ (l : List (Nat × Nat)) (j : Nat), j < l.length →
        (l.map (fun e => edgeMidpoint (verts.getD e.1 (0, 0, 0))
          (verts.getD e.2 (0, 0, 0)))).getD j (0, 0, 0) =
          edgeMidpoint (verts.getD (l.getD j (0, 0)).1 (0, 0, 0))
            (verts.getD (l.getD j (0, 0)).2 (0, 0, 0)) := by
      intro l
      induction l with
      | nil => intro j hj; simp at hj
      | cons e es ih =>
        intro j hj
        cases j with
        | zero => simp
        | succ j =>
          simp only [List.map_cons, List.getD_cons_succ]
          exact ih j (by simpa using hj)
    have happ : (refineVertices verts rings).getD (verts.length + i) (0, 0, 0) =
        ((collectEdges rings).map (fun e =>
          edgeMidpoint (verts.getD e.1 (0, 0, 0))
            (verts.getD e.2 (0, 0, 0)))).getD i (0, 0, 0) := by
      rw [refineVertices, List.getD_append_right _ _ _ _ (by omega),
        Nat.add_sub_cancel_left]
    rw [happ, hmap _ i hi]

/-- Witness for `refine_correct`: a single triangle `(0, 1, 2)` whose rings
yield the edges `(0,1)`, `(0,2)`, `(1,2)`; the first appended vertex is the
midpoint of edge `(0, 1)`. -/
theorem refine_correct_witness :
    (refineVertices [((0 : ℚ), (0 : ℚ), (0 : ℚ)), (2, 0, 0), (0, 2, 0)]
        [[1, 2], [0, 2], [0, 1]]).getD (3 + 0) (0, 0, 0) =
      edgeMidpoint
        ([((0 : ℚ), (0 : ℚ), (0 : ℚ)), (2, 0, 0), (0, 2, 0)].getD
          ((collectEdges [[1, 2], [0, 2], [0, 1]]).getD 0 (0, 0)).1 (0, 0, 0))
        ([((0 : ℚ), (0 : ℚ), (0 : ℚ)), (2, 0, 0), (0, 2, 0)].getD
          ((collectEdges [[1, 2], [0, 2], [0, 1]]).getD 0 (0, 0)).2 (0, 0, 0)) :=
  (refine_correct [((0 : ℚ), (0 : ℚ), (0 : ℚ)), (2, 0, 0), (0, 2, 0)]
    [[1, 2], [0, 2], [0, 1]] []).2.2 0 (by decide)

/-- The first-minimum scan stays inside the scanned range. -/
theorem firstMinIdxAux_lt :
    ∀ (xs : List Nat) (i besti bestv : Nat), besti < i →
      firstMinIdxAux xs i besti bestv < i + xs.length := by
  intro xs
  induction xs with
  | nil =>
    intro i besti bestv h
    simpa [firstMinIdxAux] using h
  | cons x xs ih =>
    intro i besti bestv h
    rw [firstMinIdxAux]
    split
    · have := ih (i + 1) i x (Nat.lt_succ_self i)
      simp only [List.length_cons]
      omega
    · have := ih (i + 1) besti bestv (by omega)
      simp only [List.length_cons]
      omega

/-- `firstMinIdx` of a nonempty list is a valid index. -/
theorem firstMinIdx_lt (l : List Nat) (h : l ≠ []) :
    firstMinIdx l < l.length := by
  cases l with
  | nil => exact absurd rfl h
  | cons x xs =>
    have := firstMinIdxAux_lt xs 1 0 x (by omega)
    simp only [firstMinIdx, List.length_cons]
    omega

/-- A successful `pickSecondAux` scan returns a qualifying in-range index. -/
theorem pickSecondAux_some (ok : Nat → Bool) :
    ∀ (xs : List Nat) (i : Nat) (best : Option Nat) (bestv : Nat) (j : Nat),
      (∀ j0, best = some j0 → ok j0 = true ∧ j0 < i) →
      pickSecondAux ok xs i best bestv = some j →
      ok j = true ∧ j < i + xs.length := by
  intro xs
  induction xs with
  | nil =>
    intro i best bestv j hbest h
    rw [pickSecondAux] at h
    obtain ⟨h1, h2⟩ := hbest j h
    exact ⟨h1, by simpa using Nat.lt_of_lt_of_le h2 (Nat.le_add_right i 0)⟩
  | cons x xs ih =>
    intro i best bestv j hbest h
    rw [pickSecondAux] at h
    split at h
    · rename_i hcond
      have hok : ok i = true := by
        cases hoki : ok i
        · rw [hoki] at hcond
          simp at hcond
        · rfl
      have hres := ih (i + 1) (some i) x j
        (fun j0 hj0 => by
          have := Option.some.inj hj0
          subst this
          exact ⟨hok, Nat.lt_succ_self i⟩) h
      simp only [List.length_cons]
      exact ⟨hres.1, by omega⟩
    · have hres := ih (i + 1) best bestv j
        (fun j0 hj0 => ⟨(hbest j0 hj0).1, by
          have := (hbest j0 hj0).2
          omega⟩) h
      simp only [List.length_cons]
      exact ⟨hres.1, by omega⟩

/-- Once the scan has a best candidate, it never returns `none`. -/
theorem pickSecondAux_some_of_best (ok : Nat → Bool) :
    ∀ (xs : List Nat) (i j0 bestv : Nat),
      pickSecondAux ok xs i (some j0) bestv ≠ none := by
  intro xs
  induction xs with
  | nil =>
    intro i j0 bestv h
    rw [pickSecondAux] at h
    exact Option.noConfusion h
  | cons x xs ih =>
    intro i j0 bestv
    rw [pickSecondAux]
    split
    · exact ih _ _ _
    · exact ih _ _ _

/-- The scan succeeds when some position qualifies and beats the running
threshold. -/
theorem pickSecondAux_ne_none (ok : Nat → Bool) :
    ∀ (xs : List Nat) (i : Nat) (best : Option Nat) (bestv : Nat),
      (∃ idx, idx < xs.length ∧ ok (i + idx) = true ∧
        xs.getD idx 0 < bestv) →
      pickSecondAux ok xs i best bestv ≠ none := by
  intro xs
  induction xs with
  | nil =>
    intro i best bestv h
    obtain ⟨idx, hidx, _⟩ := h
    simp at hidx
  | cons x xs ih =>
    intro i best bestv h
    obtain ⟨idx, hidx, hok, hval⟩ := h
    rw [pickSecondAux]
    split
    · exact pickSecondAux_some_of_best ok xs (i + 1) i x
    · rename_i hcond
      cases idx with
      | zero =>
        exfalso
        simp only [Nat.add_zero] at hok
        simp only [List.getD_cons_zero] at hval
        rw [hok, decide_eq_true hval] at hcond
        simp at hcond
      | succ idx =>
        refine ih (i + 1) best bestv ⟨idx, by simpa using hidx, ?_, ?_⟩
        · have harg : i + 1 + idx = i + (idx + 1) := by omega
          rw [harg]
          exact hok
        · simpa using hval

/-- Bounds on the cyclic chord distance `d = (j + k - i) % k` implied by the
candidate constraints: the chord skips at least one record on each side. -/
theorem cyc_dist_bounds (i j k : Nat) (hik : i < k) (hjk : j < k)
    (hk : 4 ≤ k) (hne : j ≠ i) (hsucc : j ≠ (i + 1) % k)
    (hpred : (j + 1) % k ≠ i) :
    2 ≤ (j + k - i) % k ∧ (j + k - i) % k ≤ k - 2 := by
  have hi1 : (i + 1) % k = if i + 1 = k then 0 else i + 1 := by
    split
    · rename_i h
      rw [h, Nat.mod_self]
    · exact Nat.mod_eq_of_lt (by omega)
  have hj1 : (j + 1) % k = if j + 1 = k then 0 else j + 1 := by
    split
    · rename_i h
      rw [h, Nat.mod_self]
    · exact Nat.mod_eq_of_lt (by omega)
  rw [hi1] at hsucc
  rw [hj1] at hpred
  rcases Nat.lt_or_ge (j + k - i) k with hc | hc
  · rw [Nat.mod_eq_of_lt hc]
    split at hsucc <;> split at hpred <;> omega
  · have hmod : (j + k - i) % k = j - i := by
      rw [Nat.mod_eq_sub_mod hc, show j + k - i - k = j - i by omega,
        Nat.mod_eq_of_lt (by omega)]
    rw [hmod]
    split at hsucc <;> split at hpred <;> omega

/-- Position `(i + 2) % k` always qualifies as a `p₂` candidate when the
cycle has at least four records. -/
theorem candidate_ok (i k : Nat) (hik : i < k) (hk : 4 ≤ k) :
    (i + 2) % k < k ∧ polyOk i k ((i + 2) % k) = true := by
  have hklt : 0 < k := by omega
  have hmodlt : (i + 2) % k < k := Nat.mod_lt _ hklt
  refine ⟨hmodlt, ?_⟩
  have h3 : i + 2 < k ∨ i + 2 = k ∨ i + 2 = k + 1 := by omega
  rcases h3 with hc | hc | hc
  · have e2 : (i + 2) % k = i + 2 := Nat.mod_eq_of_lt hc
    have e1 : (i + 1) % k = i + 1 := Nat.mod_eq_of_lt (by omega)
    rcases Nat.lt_or_ge (i + 3) k with hc3 | hc3
    · have e3 : ((i + 2) % k + 1) % k = i + 3 := by
        rw [e2]
        exact Nat.mod_eq_of_lt (by omega)
      simp only [polyOk, Bool.and_eq_true, decide_eq_true_eq]
      omega
    · have hk3 : k = i + 3 := by omega
      have e3 : ((i + 2) % k + 1) % k = 0 := by
        rw [e2, show i + 2 + 1 = k by omega, Nat.mod_self]
      simp only [polyOk, Bool.and_eq_true, decide_eq_true_eq]
      omega
  · have e2 : (i + 2) % k = 0 := by
      rw [← hc] at hklt ⊢
      rw [Nat.mod_self]
    have e1 : (i + 1) % k = i + 1 := Nat.mod_eq_of_lt (by omega)
    have e3 : ((i + 2) % k + 1) % k = 1 := by
      rw [e2]
      exact Nat.mod_eq_of_lt (by omega)
    simp only [polyOk, Bool.and_eq_true, decide_eq_true_eq]
    omega
  · have e2 : (i + 2) % k = 1 := by
      rw [show i + 2 = k + 1 by omega, Nat.add_mod_left,
        Nat.mod_eq_of_lt (by omega)]
    have e1 : (i + 1) % k = 0 := by
      rw [show i + 1 = k by omega, Nat.mod_self]
    have e3 : ((i + 2) % k + 1) % k = 2 := by
      rw [e2]
      exact Nat.mod_eq_of_lt (by omega)
    simp only [polyOk, Bool.and_eq_true, decide_eq_true_eq]
    omega

/-- `incDegAt` preserves the list length. -/
theorem incDegAt_length : ∀ (L : List PolyRec) (i : Nat),
    (incDegAt L i).length = L.length := by
  intro L
  induction L with
  | nil => intro i; rfl
  | cons r rs ih =>
    intro i
    cases i with
    | zero => rfl
    | succ i => simp [incDegAt, ih]

/-- Every record of `incDegAt L i` is a record of `L` with its degree raised
by at most one. -/
theorem incDegAt_mem : ∀ (L : List PolyRec) (i : Nat),
    ∀ r ∈ incDegAt L i, ∃ r' ∈ L, r.b ≤ r'.b + 1 := by
  intro L
  induction L with
  | nil => intro i r hr; simp [incDegAt] at hr
  | cons x rs ih =>
    intro i r hr
    cases i with
    | zero =>
      rw [incDegAt] at hr
      rcases List.mem_cons.mp hr with h | h
      · exact ⟨x, List.mem_cons_self x rs, by subst h; simp⟩
      · exact ⟨r, List.mem_cons_of_mem x h, by omega⟩
    | succ i =>
      rw [incDegAt] at hr
      rcases List.mem_cons.mp hr with h | h
      · exact ⟨x, List.mem_cons_self x rs, by subst h; omega⟩
      · obtain ⟨r', hr', hle⟩ := ih i r h
        exact ⟨r', List.mem_cons_of_mem x hr', hle⟩

/-- Two increments at distinct positions raise each record's degree by at
most one. -/
theorem incDegAt_twice_mem : ∀ (L : List PolyRec) (i j : Nat), j ≠ i →
    ∀ r ∈ incDegAt (incDegAt L i) j, ∃ r' ∈ L, r.b ≤ r'.b + 1 := by
  intro L
  induction L with
  | nil => intro i j _ r hr; simp [incDegAt] at hr
  | cons x rs ih =>
    intro i j hij r hr
    cases i with
    | zero =>
      cases j with
      | zero => exact absurd rfl hij
      | succ j =>
        rw [incDegAt, incDegAt] at hr
        rcases List.mem_cons.mp hr with h | h
        · exact ⟨x, List.mem_cons_self x rs, by subst h; simp⟩
        · obtain ⟨r', hr', hle⟩ := incDegAt_mem rs j r h
          exact ⟨r', List.mem_cons_of_mem x hr', hle⟩
    | succ i =>
      cases j with
      | zero =>
        rw [incDegAt, incDegAt] at hr
        rcases List.mem_cons.mp hr with h | h
        · exact ⟨x, List.mem_cons_self x rs, by subst h; simp⟩
        · obtain ⟨r', hr', hle⟩ := incDegAt_mem rs i r h
          exact ⟨r', List.mem_cons_of_mem x hr', hle⟩
      | succ j =>
        rw [incDegAt, incDegAt] at hr
        rcases List.mem_cons.mp hr with h | h
        · exact ⟨x, List.mem_cons_self x rs, by subst h; omega⟩
        · obtain ⟨r', hr', hle⟩ := ih i j (by omega) r h
          exact ⟨r', List.mem_cons_of_mem x hr', hle⟩

/-- What a successful chord pick guarantees: `p₁` is the first minimal
degree index and `p₂` is a qualifying in-range candidate. -/
theorem subdivChord_some (L : List PolyRec) (i j : Nat)
    (h : subdivChord L = some (i, j)) :
    i = firstMinIdx (polyDegs L) ∧ polyOk i L.length j = true ∧
      j < L.length := by
  rw [subdivChord] at h
  split at h
  · exact Option.noConfusion h
  · rename_i j' hj'
    have hpair := Option.some.inj h
    have hi : i = firstMinIdx (polyDegs L) := (Prod.mk.injEq _ _ _ _ ▸ hpair).1.symm
    have hj : j = j' := (Prod.mk.injEq _ _ _ _ ▸ hpair).2.symm
    subst hi
    subst hj
    have := pickSecondAux_some _ (polyDegs L) 0 none 99999 j
      (fun j0 hj0 => Option.noConfusion hj0) hj'
    refine ⟨rfl, this.1, ?_⟩
    have hlen : (polyDegs L).length = L.length := List.length_map _ _
    omega

/-- The chord pick succeeds on any cycle of length at least four whose
degrees stay below the `99999` accumulator seed. -/
theorem subdivChord_ne_none (L : List PolyRec) (hk : 4 ≤ L.length)
    (hdeg : ∀ r ∈ L, r.b < 99999) :
    subdivChord L ≠ none := by
  rw [subdivChord]
  split
  · rename_i hnone
    exfalso
    have hi : firstMinIdx (polyDegs L) < L.length := by
      have := firstMinIdx_lt (polyDegs L)
        (by simp [polyDegs]; intro h; rw [h] at hk; simp at hk)
      simpa [polyDegs] using this
    obtain ⟨hlt, hok⟩ := candidate_ok (firstMinIdx (polyDegs L)) L.length hi
      (by omega)
    refine pickSecondAux_ne_none _ (polyDegs L) 0 none 99999 ?_ hnone
    refine ⟨(firstMinIdx (polyDegs L) + 2) % L.length, ?_, ?_, ?_⟩
    · simpa [polyDegs] using hlt
    · simpa using hok
    · have hlt' : (firstMinIdx (polyDegs L) + 2) % L.length <
          (polyDegs L).length := by simpa [polyDegs] using hlt
      have hmem : (polyDegs L).getD
          ((firstMinIdx (polyDegs L) + 2) % L.length) 0 ∈ polyDegs L := by
        rw [List.getD_eq_getElem _ _ hlt']
        exact List.getElem_mem hlt'
      obtain ⟨r, hr, hrb⟩ := List.mem_map.mp hmem
      have := hdeg r hr
      omega
  · simp

/-- Both sub-cycles of a split are strictly shorter than the cycle, at least
triangles, and their degrees grow by at most one. -/
theorem subdivParts_spec (L : List PolyRec) (i j : Nat)
    (h : subdivChord L = some (i, j)) (hk : 4 ≤ L.length) :
    (subdivParts L i j).1.length + (subdivParts L i j).2.length =
        L.length + 2 ∧
    3 ≤ (subdivParts L i j).1.length ∧
    3 ≤ (subdivParts L i j).2.length ∧
    (subdivParts L i j).1.length ≤ L.length - 1 ∧
    (subdivParts L i j).2.length ≤ L.length - 1 ∧
    (∀ r ∈ (subdivParts L i j).1, ∃ r' ∈ L, r.b ≤ r'.b + 1) ∧
    (∀ r ∈ (subdivParts L i j).2, ∃ r' ∈ L, r.b ≤ r'.b + 1) := by
  obtain ⟨hi, hok, hjk⟩ := subdivChord_some L i j h
  have hik : i < L.length := by
    rw [hi]
    have := firstMinIdx_lt (polyDegs L)
      (by simp [polyDegs]; intro hnil; rw [hnil] at hk; simp at hk)
    simpa [polyDegs] using this
  simp only [polyOk, Bool.and_eq_true, decide_eq_true_eq] at hok
  obtain ⟨⟨hne, hsucc⟩, hpred⟩ := hok
  obtain ⟨hd2, hdk2⟩ := cyc_dist_bounds i j L.length hik hjk hk hne hsucc hpred
  have hji : j ≠ i := hne
  have hL1 : (incDegAt (incDegAt L i) j).length = L.length := by
    rw [incDegAt_length, incDegAt_length]
  have hLr : ((incDegAt (incDegAt L i) j).rotate i).length = L.length := by
    rw [List.length_rotate, hL1]
  set d := (j + L.length - i) % L.length with hd
  have hdlt : d < L.length := by omega
  have hlen1 : (subdivParts L i j).1.length = d + 1 := by
    simp only [subdivParts, List.length_take, hLr]
    omega
  have hlen2 : (subdivParts L i j).2.length = L.length - d + 1 := by
    simp only [subdivParts, List.length_append, List.length_take,
      List.length_drop, hLr]
    omega
  have hmem1 : ∀ r ∈ (subdivParts L i j).1, ∃ r' ∈ L, r.b ≤ r'.b + 1 := by
    intro r hr
    apply incDegAt_twice_mem L i j hji
    exact List.mem_rotate.mp (List.mem_of_mem_take hr)
  have hmem2 : ∀ r ∈ (subdivParts L i j).2, ∃ r' ∈ L, r.b ≤ r'.b + 1 := by
    intro r hr
    apply incDegAt_twice_mem L i j hji
    simp only [subdivParts, List.mem_append] at hr
    rcases hr with (h1 | h1) | h1
    · exact List.mem_rotate.mp (List.mem_of_mem_take h1)
    · exact List.mem_rotate.mp (List.mem_of_mem_drop (List.mem_of_mem_take h1))
    · exact List.mem_rotate.mp (List.mem_of_mem_drop h1)
  exact ⟨by omega, by omega, by omega, by omega, by omega, hmem1, hmem2⟩

/-- Invariant of the fuelled `subdividePolygon`: with enough fuel, a cycle of
`k ≥ 3` records whose degrees have room below `99999` advances
`faceAvailableIndex` by exactly `k - 2` and appends writes to the face slots
`faceAvailableList[idx₀], faceAvailableList[idx₀ + 1], ...` in order. -/
theorem subdividePolygonFuel_spec (fal : Nat → Nat) (marker : Nat) :
    ∀ (fuel : Nat) (L : List PolyRec) (st : SubdivState),
      L.length ≤ fuel → 3 ≤ L.length →
      (∀ r ∈ L, r.b + L.length < 99999) →
      (subdividePolygonFuel fal marker fuel L st).faceAvailableIndex =
        st.faceAvailableIndex + (L.length - 2) ∧
      (subdividePolygonFuel fal marker fuel L st).writes.map Prod.fst =
        st.writes.map Prod.fst ++
          (List.range (L.length - 2)).map
            (fun t => fal (st.faceAvailableIndex + t)) := by
  intro fuel
  induction fuel with
  | zero =>
    intro L st hf h3 _
    exact absurd h3 (by omega)
  | succ fuel ih =>
    intro L st hf h3 hdeg
    rw [subdividePolygonFuel]
    rw [if_neg (by omega)]
    by_cases hk3 : L.length = 3
    · rw [if_pos hk3]
      refine ⟨by simp [hk3], ?_⟩
      simp [hk3, List.range_succ]
    · rw [if_neg hk3]
      have hk4 : 4 ≤ L.length := by omega
      have hchord : subdivChord L ≠ none :=
        subdivChord_ne_none L hk4 (fun r hr => by have := hdeg r hr; omega)
      cases hp : subdivChord L with
      | none => exact absurd hp hchord
      | some ij =>
        obtain ⟨i, j⟩ := ij
        simp only [hp]
        obtain ⟨hsum, h31, h32, hle1, hle2, hmem1, hmem2⟩ :=
          subdivParts_spec L i j hp hk4
        have hdeg1 : ∀ r ∈ (subdivParts L i j).1,
            r.b + (subdivParts L i j).1.length < 99999 := by
          intro r hr
          obtain ⟨r', hr', hle⟩ := hmem1 r hr
          have := hdeg r' hr'
          omega
        have hdeg2 : ∀ r ∈ (subdivParts L i j).2,
            r.b + (subdivParts L i j).2.length < 99999 := by
          intro r hr
          obtain ⟨r', hr', hle⟩ := hmem2 r hr
          have := hdeg r' hr'
          omega
        obtain ⟨hA1, hA2⟩ := ih (subdivParts L i j).1 st (by omega) h31 hdeg1
        obtain ⟨hB1, hB2⟩ := ih (subdivParts L i j).2
          (subdividePolygonFuel fal marker fuel (subdivParts L i j).1 st)
          (by omega) h32 hdeg2
        constructor
        · rw [hB1, hA1]
          omega
        · rw [hB2, hA2, hA1]
          rw [List.append_assoc]
          congr 1
          have hsplitn : L.length - 2 =
              ((subdivParts L i j).1.length - 2) +
                ((subdivParts L i j).2.length - 2) := by omega
          rw [hsplitn, List.range_add, List.map_append, List.map_map]
          congr 1
          apply List.map_congr_left
          intro x _
          simp only [Function.comp_apply]
          congr 1
          omega

/--
C5: for every cyclic boundary list of `k ≥ 3` records and a face-slot pool,
`subdividePolygon` terminates and emits exactly `k - 2` triangles, consuming
the face slots `faceAvailableList[*faceAvailableIndex]`,
`faceAvailableList[*faceAvailableIndex + 1]`, ... in order, so
`*faceAvailableIndex` increases by exactly `k - 2`; in particular a `k = 6`
polygon yields 4 triangles (see the witness).  The degree-field hypothesis
gives the `99999` accumulator seed of the `p₂` scan room to find a
candidate, which always holds for ring degrees of real meshes.
-/
theorem subdividePolygon_correct (fal : Nat → Nat) (marker : Nat)
    (L : List PolyRec) (st : SubdivState) (h3 : 3 ≤ L.length)
    (hdeg : ∀ r ∈ L, r.b + L.length < 99999) :
    (subdividePolygon fal marker L st).faceAvailableIndex =
      st.faceAvailableIndex + (L.length - 2) ∧
    (subdividePolygon fal marker L st).writes.length =
      st.writes.length + (L.length - 2) ∧
    (subdividePolygon fal marker L st).writes.map Prod.fst =
      st.writes.map Prod.fst ++
        (List.range (L.length - 2)).map
          (fun t => fal (st.faceAvailableIndex + t)) := by
  obtain ⟨h1, h2⟩ := subdividePolygonFuel_spec fal marker L.length L st
    le_rfl h3 hdeg
  rw [subdividePolygon]
  refine ⟨h1, ?_, h2⟩
  have h2' := congrArg List.length h2
  simp only [List.length_map, List.length_append, List.length_range] at h2'
  exact h2'

/-- Witness for `subdividePolygon_correct`: a hexagonal boundary (`k = 6`)
yields exactly `4` triangles and advances the slot index by `4`. -/
theorem subdividePolygon_correct_witness :
    (subdividePolygon (fun i => 100 + i) 7
        [⟨10, 5⟩, ⟨11, 6⟩, ⟨12, 5⟩, ⟨13, 4⟩, ⟨14, 6⟩, ⟨15, 5⟩]
        ⟨[], 0⟩).faceAvailableIndex = 0 + (6 - 2) ∧
    (subdividePolygon (fun i => 100 + i) 7
        [⟨10, 5⟩, ⟨11, 6⟩, ⟨12, 5⟩, ⟨13, 4⟩, ⟨14, 6⟩, ⟨15, 5⟩]
        ⟨[], 0⟩).writes.length = 0 + (6 - 2) := by
  have h := subdividePolygon_correct (fun i => 100 + i) 7
    [⟨10, 5⟩, ⟨11, 6⟩, ⟨12, 5⟩, ⟨13, 4⟩, ⟨14, 6⟩, ⟨15, 5⟩] ⟨[], 0⟩
    (by decide) (by decide)
  exact ⟨h.1, h.2.1⟩

/-- `pushRecord` preserves the number of rings. -/
theorem pushRecord_length (rings : List (List NPNT3)) (v : Nat) (r : NPNT3) :
    (pushRecord rings v r).length = rings.length := by
  simp [pushRecord]

/-- `buildStep` preserves the number of rings. -/
theorem buildStep_length (rings : List (List NPNT3))
    (kf : Nat × (Nat × Nat × Nat)) :
    (buildStep rings kf).length = rings.length := by
  simp [buildStep, pushRecord_length]

/-- The ring-building fold preserves the number of rings. -/
theorem buildFold_length :
    ∀ (efs : List (Nat × (Nat × Nat × Nat))) (init : List (List NPNT3)),
      (efs.foldl buildStep init).length = init.length := by
  intro efs
  induction efs with
  | nil => intro init; rfl
  | cons kf efs ih =>
    intro init
    rw [List.foldl_cons, ih, buildStep_length]

/-- One ring per vertex. -/
theorem buildRings_length (numV : Nat) (faces : List (Nat × Nat × Nat)) :
    (buildRings numV faces).length = numV := by
  rw [buildRings, buildFold_length, List.length_replicate]

/-- Reading a ring through one push. -/
theorem pushRecord_getD (rings : List (List NPNT3)) (v : Nat) (r : NPNT3)
    (u : Nat) (hv : v < rings.length) :
    (pushRecord rings v r).getD u [] =
      if v = u then r :: rings.getD u [] else rings.getD u [] := by
  simp only [pushRecord, List.getD_eq_getElem?_getD, List.getElem?_set, hv,
    if_true]
  split
  · rename_i h
    subst h
    rfl
  · rfl

/-- Reading a ring through one face's pushes. -/
theorem buildStep_getD (rings : List (List NPNT3))
    (kf : Nat × (Nat × Nat × Nat)) (u : Nat)
    (h1 : kf.2.1 < rings.length) (h2 : kf.2.2.1 < rings.length)
    (h3 : kf.2.2.2 < rings.length) :
    (buildStep rings kf).getD u [] =
      (faceRecordsAt u kf).reverse ++ rings.getD u [] := by
  rw [buildStep,
    pushRecord_getD _ _ _ _ (by rw [pushRecord_length, pushRecord_length]; exact h3),
    pushRecord_getD _ _ _ _ (by rw [pushRecord_length]; exact h2),
    pushRecord_getD _ _ _ _ h1]
  by_cases e1 : kf.2.1 = u <;> by_cases e2 : kf.2.2.1 = u <;>
    by_cases e3 : kf.2.2.2 = u <;>
    simp [faceRecordsAt, e1, e2, e3]

/-- Reading a ring through the whole fold: the pushed records, reversed,
in front of the initial ring. -/
theorem buildFold_getD :
    ∀ (efs : List (Nat × (Nat × Nat × Nat))) (init : List (List NPNT3))
      (u : Nat),
      (∀ kf ∈ efs, kf.2.1 < init.length ∧ kf.2.2.1 < init.length ∧
        kf.2.2.2 < init.length) →
      (efs.foldl buildStep init).getD u [] =
        ((efs.map (faceRecordsAt u)).flatten).reverse ++ init.getD u [] := by
  intro efs
  induction efs with
  | nil => intro init u _; simp
  | cons kf efs ih =>
    intro init u hrange
    obtain ⟨hk1, hk2, hk3⟩ := hrange kf (List.mem_cons_self kf efs)
    rw [List.foldl_cons,
      ih (buildStep init kf) u (fun kf' hkf' => by
        rw [buildStep_length]
        exact hrange kf' (List.mem_cons_of_mem kf hkf')),
      buildStep_getD init kf u hk1 hk2 hk3]
    simp [List.reverse_append]

/-- Ring of vertex `u` after phase 1. -/
theorem buildRings_getD (numV : Nat) (faces : List (Nat × Nat × Nat))
    (u : Nat)
    (hrange : ∀ f ∈ faces, f.1 < numV ∧ f.2.1 < numV ∧ f.2.2 < numV) :
    (buildRings numV faces).getD u [] =
      ((faces.enum.map (faceRecordsAt u)).flatten).reverse := by
  rw [buildRings, buildFold_getD faces.enum (List.replicate numV []) u
    (fun kf hkf => by
      have hmem : kf.2 ∈ faces := List.snd_mem_of_mem_enumFrom hkf
      simpa [List.length_replicate] using hrange kf.2 hmem)]
  have hrep : (List.replicate numV ([] : List NPNT3)).getD u [] = [] := by
    simp [List.getD_eq_getElem?_getD, List.getElem?_replicate]
    split <;> rfl
  rw [hrep, List.append_nil]

/-- `countP` distributes over `flatten` as the sum of per-chunk counts. -/
theorem countP_flatten (p : NPNT3 → Bool) :
    ∀ (ls : List (List NPNT3)),
      (ls.flatten).countP p = (ls.map (fun l => l.countP p)).sum := by
  intro ls
  induction ls with
  | nil => rfl
  | cons l ls ih => simp [List.countP_append, ih]

/-- The per-face record block contributes `cornerContrib` records for its
own face index and none for any other. -/
theorem faceRecordsAt_countP (v k : Nat) (kf : Nat × (Nat × Nat × Nat)) :
    (faceRecordsAt v kf).countP (fun r => r.c == k) =
      if kf.1 = k then cornerContrib v kf.2 else 0 := by
  by_cases hk : kf.1 = k <;>
    by_cases e1 : kf.2.1 = v <;> by_cases e2 : kf.2.2.1 = v <;>
    by_cases e3 : kf.2.2.2 = v <;>
    simp [faceRecordsAt, cornerContrib, e1, e2, e3, hk,
      List.countP_append, List.countP_cons]

/-- Summing the per-face contribution over an enumeration hits exactly the
`k`-th face. -/
theorem contrib_sum (g : (Nat × Nat × Nat) → Nat) (k : Nat) :
    ∀ (faces : List (Nat × Nat × Nat)) (n : Nat),
      ((faces.enumFrom n).map
        (fun kf => if kf.1 = k then g kf.2 else 0)).sum =
      if n ≤ k ∧ k < n + faces.length then g (faces.getD (k - n) (0, 0, 0))
      else 0 := by
  intro faces
  induction faces with
  | nil =>
    intro n
    simp only [List.enumFrom_nil, List.map_nil, List.sum_nil,
      List.length_nil, Nat.add_zero]
    rw [if_neg (by omega)]
  | cons f fs ih =>
    intro n
    rw [List.enumFrom_cons, List.map_cons, List.sum_cons, ih (n + 1)]
    by_cases hnk : n = k
    · subst hnk
      rw [if_pos rfl]
      rw [if_neg (by omega), if_pos (by simp only [List.length_cons]; omega)]
      simp
    · rw [if_neg hnk]
      by_cases hin : n + 1 ≤ k ∧ k < n + 1 + fs.length
      · rw [if_pos hin, if_pos (by simp only [List.length_cons]; omega)]
        have : k - n = (k - (n + 1)) + 1 := by omega
        rw [this, List.getD_cons_succ]
        omega
      · rw [if_neg hin, if_neg (by simp only [List.length_cons]; omega)]

/-- After phase 1, vertex `v`'s ring holds exactly `cornerContrib v f`
records carrying face index `k`, where `f` is the `k`-th face. -/
theorem buildRings_corner_count (numV : Nat)
    (faces : List (Nat × Nat × Nat))
    (hrange : ∀ f ∈ faces, f.1 < numV ∧ f.2.1 < numV ∧ f.2.2 < numV)
    (k : Nat) (hk : k < faces.length) (v : Nat) :
    ((buildRings numV faces).getD v []).countP (fun r => r.c == k) =
      cornerContrib v (faces.getD k (0, 0, 0)) := by
  rw [buildRings_getD numV faces v hrange, List.countP_reverse,
    countP_flatten, List.map_map]
  have hmc : faces.enum.map
      ((fun l => List.countP (fun r => r.c == k) l) ∘ faceRecordsAt v) =
      faces.enum.map (fun kf => if kf.1 = k then cornerContrib v kf.2 else 0) :=
    List.map_congr_left (fun kf _ => faceRecordsAt_countP v k kf)
  rw [hmc]
  have henum : faces.enum = faces.enumFrom 0 := rfl
  rw [henum, contrib_sum, if_pos (by omega), Nat.sub_zero]

/-- An in-range push adds exactly one record to the grand total. -/
theorem pushRecord_total :
    ∀ (rings : List (List NPNT3)) (v : Nat) (r : NPNT3), v < rings.length →
      ((pushRecord rings v r).map List.length).sum =
        (rings.map List.length).sum + 1 := by
  intro rings
  induction rings with
  | nil => intro v r h; simp at h
  | cons ring rest ih =>
    intro v r h
    cases v with
    | zero =>
      simp only [pushRecord, List.set_cons_zero, List.getD_cons_zero,
        List.map_cons, List.sum_cons, List.length_cons]
      omega
    | succ v =>
      have hstep : pushRecord (ring :: rest) (v + 1) r =
          ring :: pushRecord rest v r := by
        simp [pushRecord, List.getD_cons_succ]
      rw [hstep]
      simp only [List.map_cons, List.sum_cons]
      rw [ih v r (by simpa using h)]
      omega

/-- A face with in-range corners adds exactly three records. -/
theorem buildStep_total (rings : List (List NPNT3))
    (kf : Nat × (Nat × Nat × Nat)) (h1 : kf.2.1 < rings.length)
    (h2 : kf.2.2.1 < rings.length) (h3 : kf.2.2.2 < rings.length) :
    ((buildStep rings kf).map List.length).sum =
      (rings.map List.length).sum + 3 := by
  rw [buildStep,
    pushRecord_total _ _ _ (by rw [pushRecord_length, pushRecord_length]; exact h3),
    pushRecord_total _ _ _ (by rw [pushRecord_length]; exact h2),
    pushRecord_total _ _ _ h1]

/-- The fold adds three records per face. -/
theorem buildFold_total :
    ∀ (efs : List (Nat × (Nat × Nat × Nat))) (init : List (List NPNT3)),
      (∀ kf ∈ efs, kf.2.1 < init.length ∧ kf.2.2.1 < init.length ∧
        kf.2.2.2 < init.length) →
      ((efs.foldl buildStep init).map List.length).sum =
        (init.map List.length).sum + 3 * efs.length := by
  intro efs
  induction efs with
  | nil => intro init _; simp
  | cons kf efs ih =>
    intro init hrange
    obtain ⟨hk1, hk2, hk3⟩ := hrange kf (List.mem_cons_self kf efs)
    rw [List.foldl_cons,
      ih (buildStep init kf) (fun kf' hkf' => by
        rw [buildStep_length]
        exact hrange kf' (List.mem_cons_of_mem kf hkf')),
      buildStep_total init kf hk1 hk2 hk3]
    simp only [List.length_cons]
    omega

/-- Total ring length after phase 1: three records per face. -/
theorem buildRings_total (numV : Nat) (faces : List (Nat × Nat × Nat))
    (hrange : ∀ f ∈ faces, f.1 < numV ∧ f.2.1 < numV ∧ f.2.2 < numV) :
    ((buildRings numV faces).map List.length).sum = 3 * faces.length := by
  rw [buildRings, buildFold_total faces.enum (List.replicate numV [])
    (fun kf hkf => by
      have hmem : kf.2 ∈ faces := List.snd_mem_of_mem_enumFrom hkf
      simpa [List.length_replicate] using hrange kf.2 hmem)]
  simp [List.enum_length, List.map_replicate]

/-- A found successor is a permutation split of the scanned tail. -/
theorem findSucc_perm (prev : NPNT3) :
    ∀ (l : List NPNT3) (q : NPNT3) (rest : List NPNT3),
      findSucc prev l = some (q, rest) → l.Perm (q :: rest) := by
  intro l
  induction l with
  | nil => intro q rest h; exact Option.noConfusion h
  | cons r rs ih =>
    intro q rest h
    rw [findSucc] at h
    by_cases hcond : (r.a == prev.b && !(r.b == prev.a)) = true
    · rw [if_pos hcond] at h
      cases h
      exact List.Perm.refl _
    · rw [if_neg hcond] at h
      cases heq : findSucc prev rs with
      | none =>
        rw [heq] at h
        exact Option.noConfusion h
      | some p =>
        obtain ⟨q', rest'⟩ := p
        rw [heq] at h
        have hinj := Option.some.inj h
        have hq : q' = q := congrArg Prod.fst hinj
        have hrest : r :: rest' = rest := congrArg Prod.snd hinj
        rw [← hq, ← hrest]
        exact ((ih q' rest' heq).cons r).trans (List.Perm.swap q' r rest')

/-- Unfolding of the splice walk at positive fuel. -/
theorem orderRingAux_succ (fuel : Nat) (cur : NPNT3) (rest : List NPNT3) :
    orderRingAux (fuel + 1) cur rest =
      match findSucc cur rest with
      | some (q, rest') => q :: orderRingAux fuel q rest'
      | none =>
        match rest with
        | [] => []
        | q :: rs => q :: orderRingAux fuel q rs := rfl

/-- The splice walk permutes the scanned tail. -/
theorem orderRingAux_perm :
    ∀ (fuel : Nat) (cur : NPNT3) (rest : List NPNT3), rest.length ≤ fuel →
      (orderRingAux fuel cur rest).Perm rest := by
  intro fuel
  induction fuel with
  | zero =>
    intro cur rest h
    have : rest = [] := List.length_eq_zero.mp (by omega)
    subst this
    rfl
  | succ fuel ih =>
    intro cur rest h
    cases heq : findSucc cur rest with
    | some p =>
      obtain ⟨q, rest'⟩ := p
      have hperm := findSucc_perm cur rest q rest' heq
      have hlen : rest'.length + 1 = rest.length := by
        simpa using hperm.length_eq.symm
      have hrw : orderRingAux (fuel + 1) cur rest =
          q :: orderRingAux fuel q rest' := by
        rw [orderRingAux_succ, heq]
      rw [hrw]
      exact ((ih q rest' (by omega)).cons q).trans hperm.symm
    | none =>
      cases rest with
      | nil =>
        have hrw : orderRingAux (fuel + 1) cur [] = [] := by
          rw [orderRingAux_succ, heq]
        rw [hrw]
      | cons q rs =>
        have hrw : orderRingAux (fuel + 1) cur (q :: rs) =
            q :: orderRingAux fuel q rs := by
          rw [orderRingAux_succ, heq]
        rw [hrw]
        simp only [List.length_cons] at h
        exact (ih q rs (by omega)).cons q

/-- Ordering a ring permutes its records. -/
theorem orderRing_perm (l : List NPNT3) : (orderRing l).Perm l := by
  cases l with
  | nil => rfl
  | cons r rs =>
    rw [orderRing]
    exact (orderRingAux_perm rs.length r rs le_rfl).cons r

/-- Counting through the per-index view of `countP` on rings. -/
theorem countP_eq_range_filter :
    ∀ (rings : List (List NPNT3)),
      rings.countP (fun r => !r.isEmpty) =
        ((List.range rings.length).filter
          (fun j => !(rings.getD j []).isEmpty)).length := by
  intro rings
  induction rings with
  | nil => rfl
  | cons ring rest ih =>
    rw [List.countP_cons, List.length_cons, List.range_succ_eq_map,
      List.filter_cons, List.filter_map]
    have hcong : (List.range rest.length).filter
        ((fun j => !((ring :: rest).getD j []).isEmpty) ∘ Nat.succ) =
        (List.range rest.length).filter (fun j => !(rest.getD j []).isEmpty) :=
      List.filter_congr (fun j _ => by simp [List.getD_cons_succ])
    rw [hcong]
    split
    · rename_i hhead
      rw [if_pos (by rw [List.getD_cons_zero]; exact hhead)]
      simp only [List.length_cons, List.length_map]
      rw [ih]
    · rename_i hhead
      rw [if_neg (by rw [List.getD_cons_zero]; exact hhead)]
      simp only [List.length_map]
      rw [ih]
      omega

/-- Splitting `range i` by emptiness: removed plus kept is `i`. -/
theorem offset_kept_split (rings : List (List NPNT3)) (i : Nat) :
    offsetBelow rings i +
      ((List.range i).filter (fun j => !(rings.getD j []).isEmpty)).length =
      i := by
  rw [offsetBelow]
  have h1 : ∀ (l : List Nat) (p : Nat → Bool),
      (l.filter p).length + (l.filter (fun x => !p x)).length = l.length := by
    intro l p
    induction l with
    | nil => rfl
    | cons x xs ihl =>
      rw [List.filter_cons, List.filter_cons]
      cases hx : p x
      · rw [if_neg (by simp [hx]), if_pos (by simp [hx])]
        simp only [List.length_cons]
        omega
      · rw [if_pos (by simp [hx]), if_neg (by simp [hx])]
        simp only [List.length_cons]
        omega
  have h2 := h1 (List.range i) (fun j => (rings.getD j []).isEmpty)
  simp only [List.length_range] at h2
  omega

/-- The kept-prefix count grows by one at a kept index. -/
theorem kept_below_succ (rings : List (List NPNT3)) (v : Nat)
    (hne : ((rings.getD v []).isEmpty) = false) :
    ((List.range (v + 1)).filter
      (fun j => !(rings.getD j []).isEmpty)).length =
    ((List.range v).filter (fun j => !(rings.getD j []).isEmpty)).length
      + 1 := by
  rw [List.range_succ, List.filter_append]
  rw [List.getD_eq_getElem?_getD] at hne
  simp [hne]

/-- The kept-prefix count is monotone. -/
theorem kept_below_mono (rings : List (List NPNT3)) (v w : Nat)
    (hvw : v ≤ w) :
    ((List.range v).filter (fun j => !(rings.getD j []).isEmpty)).length ≤
    ((List.range w).filter (fun j => !(rings.getD j []).isEmpty)).length := by
  have : w = v + (w - v) := by omega
  rw [this, List.range_add, List.filter_append]
  simp

/-- Remapped index of a kept vertex is inside the compacted table. -/
theorem remap_lt (rings : List (List NPNT3)) (v : Nat)
    (hv : v < rings.length) (hne : ((rings.getD v []).isEmpty) = false) :
    v - offsetBelow rings v < rings.countP (fun r => !r.isEmpty) := by
  have hsplit := offset_kept_split rings v
  have hsucc := kept_below_succ rings v hne
  have hmono := kept_below_mono rings (v + 1) rings.length (by omega)
  have hcount := countP_eq_range_filter rings
  omega

/-- Length of the compacted selection list: one entry per kept vertex. -/
theorem removeUnconnected_sel_length :
    ∀ (sel : List Bool) (rings : List (List NPNT3))
      (faces : List (Nat × Nat × Nat)), sel.length = rings.length →
      (removeUnconnected sel rings faces).1.length =
        rings.countP (fun r => !r.isEmpty) := by
  intro sel
  induction sel with
  | nil =>
    intro rings faces h
    cases rings with
    | nil => rfl
    | cons ring rest => simp at h
  | cons b bs ih =>
    intro rings faces h
    cases rings with
    | nil => simp at h
    | cons ring rest =>
      simp only [removeUnconnected, List.zip_cons_cons, List.filter_cons,
        List.countP_cons]
      have hlen : bs.length = rest.length := by
        simpa using h
      have hih := ih rest faces hlen
      simp only [removeUnconnected] at hih
      cases hr : (!ring.isEmpty)
      · rw [if_neg (by simp [hr]), hih]
        simp
      · rw [if_pos (by simp [hr])]
        simp only [List.map_cons, List.length_cons, hih]
        simp

/-- A list with a positive count is nonempty. -/
theorem ring_nonempty_of_countP_pos (l : List NPNT3) (p : NPNT3 → Bool)
    (h : 0 < l.countP p) : l.isEmpty = false := by
  cases l with
  | nil => simp at h
  | cons r rs => rfl

/-- Every corner of every face receives at least one record in phase 1. -/
theorem corner_nonempty (numV : Nat) (faces : List (Nat × Nat × Nat))
    (hrange : ∀ f ∈ faces, f.1 < numV ∧ f.2.1 < numV ∧ f.2.2 < numV)
    (f : Nat × Nat × Nat) (hf : f ∈ faces) :
    (((buildRings numV faces).getD f.1 []).isEmpty = false) ∧
    (((buildRings numV faces).getD f.2.1 []).isEmpty = false) ∧
    (((buildRings numV faces).getD f.2.2 []).isEmpty = false) := by
  obtain ⟨k, hk, hget⟩ := List.mem_iff_getElem.mp hf
  have hgetD : faces.getD k (0, 0, 0) = f := by
    rw [List.getD_eq_getElem _ _ hk, hget]
  refine ⟨?_, ?_, ?_⟩ <;>
    [apply ring_nonempty_of_countP_pos _ (fun r => r.c == k);
     apply ring_nonempty_of_countP_pos _ (fun r => r.c == k);
     apply ring_nonempty_of_countP_pos _ (fun r => r.c == k)] <;>
    rw [buildRings_corner_count numV faces hrange k hk, hgetD] <;>
    simp [cornerContrib]

/-- The compacted faces of a restart stay in range of the compacted vertex
table. -/
theorem removeUnconnected_range (sel : List Bool)
    (faces : List (Nat × Nat × Nat))
    (hrange : ∀ f ∈ faces, f.1 < sel.length ∧ f.2.1 < sel.length ∧
      f.2.2 < sel.length) :
    ∀ f' ∈ (removeUnconnected sel (buildRings sel.length faces) faces).2,
      f'.1 < (removeUnconnected sel (buildRings sel.length faces) faces).1.length ∧
      f'.2.1 < (removeUnconnected sel (buildRings sel.length faces) faces).1.length ∧
      f'.2.2 < (removeUnconnected sel (buildRings sel.length faces) faces).1.length := by
  intro f' hf'
  have hlen : sel.length = (buildRings sel.length faces).length :=
    (buildRings_length _ _).symm
  have hsel := removeUnconnected_sel_length sel (buildRings sel.length faces)
    faces hlen
  rw [hsel]
  have hmem : f' ∈ faces.map (fun f =>
      (f.1 - offsetBelow (buildRings sel.length faces) f.1,
        f.2.1 - offsetBelow (buildRings sel.length faces) f.2.1,
        f.2.2 - offsetBelow (buildRings sel.length faces) f.2.2)) := hf'
  obtain ⟨f, hf, hf'eq⟩ := List.mem_map.mp hmem
  obtain ⟨h1, h2, h3⟩ := hrange f hf
  obtain ⟨e1, e2, e3⟩ := corner_nonempty sel.length faces hrange f hf
  subst hf'eq
  refine ⟨?_, ?_, ?_⟩
  · exact remap_lt _ _ (by omega) e1
  · exact remap_lt _ _ (by omega) e2
  · exact remap_lt _ _ (by omega) e3

/-- Reading an ordered ring through the map. -/
theorem getD_map_orderRing (rings : List (List NPNT3)) (v : Nat)
    (hv : v < rings.length) :
    (rings.map orderRing).getD v [] = orderRing (rings.getD v []) := by
  rw [List.getD_eq_getElem?_getD, List.getD_eq_getElem?_getD,
    List.getElem?_map, List.getElem?_eq_getElem hv]
  rfl

/-- Ordering rings preserves the total record count. -/
theorem ordered_total (rings : List (List NPNT3)) :
    ((rings.map orderRing).map List.length).sum =
      (rings.map List.length).sum := by
  rw [List.map_map]
  exact congrArg List.sum
    (List.map_congr_left (fun r _ => (orderRing_perm r).length_eq))

/-- Core specification of `createNeighborlistAux`, by induction on fuel:
construction completes, the ordered rings hold three records per face, every
face index appears exactly once in each distinct corner's ring, and a
selected vertex always has a closed ring. -/
theorem createNeighborlistAux_spec :
    ∀ (fuel : Nat) (sel : List Bool) (faces : List (Nat × Nat × Nat)),
      sel.length < fuel →
      (∀ f ∈ faces, f.1 < sel.length ∧ f.2.1 < sel.length ∧
        f.2.2 < sel.length) →
      ∃ out, createNeighborlistAux fuel sel faces = some out ∧
        ((out.2.2.map List.length).sum = 3 * out.2.1.length) ∧
        (∀ k, k < out.2.1.length →
          (out.2.1.getD k (0, 0, 0)).1 ≠ (out.2.1.getD k (0, 0, 0)).2.1 →
          (out.2.1.getD k (0, 0, 0)).2.1 ≠ (out.2.1.getD k (0, 0, 0)).2.2 →
          (out.2.1.getD k (0, 0, 0)).1 ≠ (out.2.1.getD k (0, 0, 0)).2.2 →
          ((out.2.2.getD (out.2.1.getD k (0, 0, 0)).1 []).countP
              (fun r => r.c == k) = 1 ∧
            (out.2.2.getD (out.2.1.getD k (0, 0, 0)).2.1 []).countP
              (fun r => r.c == k) = 1 ∧
            (out.2.2.getD (out.2.1.getD k (0, 0, 0)).2.2 []).countP
              (fun r => r.c == k) = 1)) ∧
        (∀ v, v < out.1.length → out.1.getD v false = true →
          ringClosed (out.2.2.getD v []) = true) := by
  intro fuel
  induction fuel with
  | zero =>
    intro sel faces hf _
    omega
  | succ fuel ih =>
    intro sel faces hf hrange
    rw [createNeighborlistAux]
    by_cases hconn : (buildRings sel.length faces).countP
        (fun r => !r.isEmpty) < sel.length
    · rw [if_pos hconn]
      have hlen : sel.length = (buildRings sel.length faces).length :=
        (buildRings_length _ _).symm
      have hsel := removeUnconnected_sel_length sel
        (buildRings sel.length faces) faces hlen
      exact ih (removeUnconnected sel (buildRings sel.length faces) faces).1
        (removeUnconnected sel (buildRings sel.length faces) faces).2
        (by omega)
        (fun f' hf' => by
          have := removeUnconnected_range sel faces hrange f' hf'
          exact this)
    · rw [if_neg hconn]
      refine ⟨_, rfl, ?_, ?_, ?_⟩
      · dsimp only
        rw [ordered_total, buildRings_total sel.length faces hrange]
      · dsimp only
        intro k hk hne1 hne2 hne3
        have hfmem : faces.getD k (0, 0, 0) ∈ faces := by
          rw [List.getD_eq_getElem _ _ hk]
          exact List.getElem_mem hk
        obtain ⟨h1, h2, h3⟩ := hrange _ hfmem
        have hb := buildRings_length sel.length faces
        refine ⟨?_, ?_, ?_⟩
        · rw [getD_map_orderRing _ _ (by omega),
            (orderRing_perm _).countP_eq,
            buildRings_corner_count sel.length faces hrange k hk]
          simp only [cornerContrib, if_pos rfl, if_neg (Ne.symm hne1),
            if_neg (Ne.symm hne3)]
          simp
        · rw [getD_map_orderRing _ _ (by omega),
            (orderRing_perm _).countP_eq,
            buildRings_corner_count sel.length faces hrange k hk]
          simp only [cornerContrib, if_pos rfl, if_neg hne1,
            if_neg (Ne.symm hne2)]
          simp
        · rw [getD_map_orderRing _ _ (by omega),
            (orderRing_perm _).countP_eq,
            buildRings_corner_count sel.length faces hrange k hk]
          simp only [cornerContrib, if_pos rfl, if_neg hne3, if_neg hne2]
          simp
      · dsimp only
        intro v hv hsel
        have hvlen : v < sel.length := by
          simpa [List.enum_length] using hv
        have hgv : (sel.enum.map (fun p =>
            p.2 && ringClosed (((buildRings sel.length faces).map
              orderRing).getD p.1 []))).getD v false =
            (sel[v] && ringClosed (((buildRings sel.length faces).map
              orderRing).getD v [])) := by
          rw [List.getD_eq_getElem?_getD, List.getElem?_map,
            List.getElem?_eq_getElem (by simpa [List.enum_length] using hvlen),
            List.getElem_enum]
          rfl
        rw [hgv] at hsel
        simp only [Bool.and_eq_true] at hsel
        exact hsel.2

/--
C4 (counterexample): a `coarse` pass in which vertex `0` is removed and the
zero-top-eigenvalue abort then fires at vertex `1` returns `0` but leaves
the mesh inconsistent: the early `return 0` (line 2236) skips the compaction
phase (lines 2479-2528), so vertex `0` still carries the sentinel
coordinates `(-99999, -99999, -99999)` and two freed face slots still carry
`-1` indices and marker.
-/
theorem coarse_abort_inconsistent_cx :
    (coarse cxOracle true cxMesh).2 = 0 ∧
    ¬ (∀ v ∈ (coarse cxOracle true cxMesh).1.verts, v ≠ sentinelPos) ∧
    ¬ (∀ f ∈ (coarse cxOracle true cxMesh).1.faces, f ≠ (-1, -1, -1, -1)) := by
  decide

/--
C7 (amended): for every selection vector and every face list whose corner
indices are in range, `createNeighborlist` completes without aborting
(restarts only compact unconnected vertices away), and on the returned
triple (selection flags, faces, ordered rings): the total number of ring
records equals `3 * numberFaces`; for every face `k` whose three corner
indices are pairwise distinct, the ring of each corner contains exactly one
record whose face field equals `k`; and every vertex still carrying
`selected = true` has a ring that orders into a closed cycle. Degenerate
faces with a repeated corner double-count in that corner's ring, so the
per-corner exactly-one property needs the distinctness proviso.
-/
theorem createNeighborlist_correct (sel : List Bool)
    (faces : List (Nat × Nat × Nat))
    (hrange : ∀ f ∈ faces, f.1 < sel.length ∧ f.2.1 < sel.length ∧
      f.2.2 < sel.length) :
    ∃ out, createNeighborlist sel faces = some out ∧
      ((out.2.2.map List.length).sum = 3 * out.2.1.length) ∧
      (∀ k, k < out.2.1.length →
        (out.2.1.getD k (0, 0, 0)).1 ≠ (out.2.1.getD k (0, 0, 0)).2.1 →
        (out.2.1.getD k (0, 0, 0)).2.1 ≠ (out.2.1.getD k (0, 0, 0)).2.2 →
        (out.2.1.getD k (0, 0, 0)).1 ≠ (out.2.1.getD k (0, 0, 0)).2.2 →
        ((out.2.2.getD (out.2.1.getD k (0, 0, 0)).1 []).countP
            (fun r => r.c == k) = 1 ∧
          (out.2.2.getD (out.2.1.getD k (0, 0, 0)).2.1 []).countP
            (fun r => r.c == k) = 1 ∧
          (out.2.2.getD (out.2.1.getD k (0, 0, 0)).2.2 []).countP
            (fun r => r.c == k) = 1)) ∧
      (∀ v, v < out.1.length → out.1.getD v false = true →
        ringClosed (out.2.2.getD v []) = true) := by
  unfold createNeighborlist
  exact createNeighborlistAux_spec (sel.length + 1) sel faces
    (Nat.lt_succ_self _) hrange

/-- Witness for `createNeighborlist_correct` on a tetrahedron: the four
ordered rings carry `3 * 4 = 12` records in total. -/
theorem createNeighborlist_correct_witness :
    ((createNeighborlist [true, true, true, true]
        [(0, 1, 2), (0, 2, 3), (0, 3, 1), (1, 3, 2)]).map
      (fun out => decide
        ((out.2.2.map List.length).sum = 3 * out.2.1.length))).getD
      false = true := by
  obtain ⟨out, h1, h2, -, -⟩ := createNeighborlist_correct
    [true, true, true, true] [(0, 1, 2), (0, 2, 3), (0, 3, 1), (1, 3, 2)]
    (by decide)
  rw [h1]
  simp [h2]

/--
C7 (counterexample): the per-corner exactly-one property fails without the
distinct-corners proviso — ingesting the single degenerate face `(0, 0, 1)`
(lines 256-309 push one record per corner slot, repeated corners
included) leaves TWO records with face field `0` in the ring of vertex `0`,
which is corner `a` of face `0`.
-/
theorem createNeighborlist_degenerate_double_record_cx :
    ((createNeighborlist [true, true] [(0, 0, 1)]).map
      (fun out => (out.2.2.getD (out.2.1.getD 0 (0, 0, 0)).1 []).countP
        (fun r => r.c == 0))) = some 2 := by
  decide

end OMesh
